import Mathlib

set_option linter.unusedVariables false
set_option maxRecDepth 8000

/-! # Verification of the flashcard extraction core

Shallow embedding of the extraction engine of `obsidian-list-anki-parser`
(src/extract.py and src/const.py, plus the older duplicate pipeline kept in
src/main.py where noted), together with theorems about it.

The markdown tokenizer (`md.parse`/`md.parseInline`), the HTML renderer,
and the YAML front-matter loader are external collaborators of the core and
are modelled as opaque function parameters bundled in `Env`.  Everything the
extraction code itself does — scanning the token stream, classifying
directions, extracting tags, splitting strings, injecting and numbering
cloze markers, threading state — is embedded concretely below.

Python loops that do not recurse structurally are translated with an
explicit fuel argument; every call site passes fuel that provably dominates
the number of iterations the Python loop performs, so the translation is
exact on those calls.
-/

/-- Token kinds of the markdown-it token stream that the extraction code
compares against (`token.type == "..."`).  Kinds the code never mentions
behave uniformly and are collapsed into `other`. -/
inductive TokKind where
  | list_item_open | list_item_close
  | bullet_list_open | bullet_list_close
  | ordered_list_open | ordered_list_close
  | paragraph_open | paragraph_close
  | heading_open | heading_close
  | inline | text
  | front_matter
  | html_inline | html_block
  | other
  deriving DecidableEq

/-- A child token of an `inline` token (`inline.children` in markdown-it):
the code reads its `type`, `level` and `content`, and the cloze injection
inserts fresh `text` children (`Token(type='text', ..., nesting=0)`, whose
default `level` is 0). -/
structure ChildTok where
  type : TokKind
  level : Nat
  content : String
  deriving DecidableEq

/-- A block-level token of the markdown-it token stream.  Fields are the
ones the extraction code reads: `type`, `tag` (e.g. "h2"), `level`,
`content`, and `children` (populated for `inline` tokens). -/
structure Tok where
  type : TokKind
  tag : String
  level : Nat
  content : String
  children : List ChildTok
  deriving DecidableEq

/-- `SymbolDirection` from src/const.py. -/
inductive SymbolDirection where
  | forward | backward | bidirectional
  deriving DecidableEq

/-- `INLINE_SYMBOL` from src/const.py. -/
def inlineSymbol : SymbolDirection → String
  | .forward => "==>"
  | .backward => "<=="
  | .bidirectional => "<==>"

/-- `IndexCard` from src/const.py: a located separator-card candidate. -/
structure IndexCard where
  list_open_token_index : Nat
  inline_token_index : Nat
  symbol_child_index : Nat
  symbol_direction : SymbolDirection
  list_close_token_index : Nat
  deriving DecidableEq

/-- `IndexCloze` from src/const.py: a located inline double-tilde cloze
candidate, carrying its already re-tokenized replacement tokens. -/
structure IndexCloze where
  list_open_token_index : Nat
  inline_token_index : Nat
  clozed_tokens : List Tok
  deriving DecidableEq

/-- Python exceptions that the extraction code can raise. -/
inductive PyErr where
  | valueError | indexError
  deriving DecidableEq

/-- Identity of the genanki model a note is built on (src/const.py). -/
inductive ModelId where
  | basicContext | clozeContext
  deriving DecidableEq

/-- A `genanki.Note`: model, ordered field values (per the model's declared
field order), and the attached tag set (kept as the list the code passes;
Python stores a `set`, so only membership is meaningful). -/
structure Note where
  model : ModelId
  fields : List String
  tags : List String
  deriving DecidableEq

/-- The external collaborators consumed by the core: the block tokenizer
`md.parse`, the renderer `render`, the composite
`md.parseInline` applied to the rewritten cloze content (lines 221-228 of
src/extract.py feed the rewritten string straight into `md.parseInline`),
and the YAML front-matter tag loader. -/
structure Env where
  render : List Tok → String
  parseBlocks : String → List Tok
  parseInlineCloze : String → List Tok
  yamlTags : String → List String

/-- A trivial environment used to evaluate the embedding on closed inputs. -/
def constEnv : Env :=
  { render := fun _ => ""
    parseBlocks := fun _ => []
    parseInlineCloze := fun _ => []
    yamlTags := fun _ => [] }

/-! ## String primitives (Python `in`, `split`, `strip`, `startswith`) -/

/-- Whether `p` is a prefix of `l` (character lists). -/
def startsWithChars : List Char → List Char → Bool
  | [], _ => true
  | _ :: _, [] => false
  | a :: as, b :: bs => a == b && startsWithChars as bs

/-- Whether `pat` occurs as a contiguous sublist of `l`: Python `pat in s`. -/
def containsChars (pat : List Char) : List Char → Bool
  | [] => startsWithChars pat []
  | c :: cs => startsWithChars pat (c :: cs) || containsChars pat cs

/-- Python `pat in s` on strings. -/
def strContains (s pat : String) : Bool := containsChars pat.data s.data

/-- Index of the first occurrence of `pat` in `l`, if any. -/
def findSubPos (pat : List Char) : List Char → Option Nat
  | [] => if startsWithChars pat [] then some 0 else none
  | c :: cs =>
    if startsWithChars pat (c :: cs) then some 0
    else (findSubPos pat cs).map (· + 1)

/-- Python `s.split(sep)` limited to `m` splits (`re.split(p, s, maxsplit=m)`
for a fixed-literal pattern): structural recursion on the split budget. -/
def pySplitMaxGo (sep : List Char) : Nat → List Char → List (List Char)
  | 0, cs => [cs]
  | m + 1, cs =>
    match findSubPos sep cs with
    | none => [cs]
    | some i => cs.take i :: pySplitMaxGo sep m (cs.drop (i + sep.length))

/-- Python `re.split(sep, s, maxsplit=m)` for the literal separators the
code uses (`"---\n"` and the direction glyphs). -/
def pySplitMax (s sep : String) (m : Nat) : List String :=
  (pySplitMaxGo sep.data m s.data).map (fun cs => String.mk cs)

/-- Python `s.split(sep, 1)`. -/
def pySplit1 (s sep : String) : List String := pySplitMax s sep 1

/-- Python `str.rstrip()` (ASCII whitespace, which covers the inputs the
code handles). -/
def rstripChars (cs : List Char) : List Char :=
  (cs.reverse.dropWhile Char.isWhitespace).reverse

/-- Python `str.strip()`. -/
def pyStripChars (cs : List Char) : List Char :=
  rstripChars (cs.dropWhile Char.isWhitespace)

/-- Python `s.strip()` on strings. -/
def pyStrip (s : String) : String := String.mk (pyStripChars s.data)

/-- Whether `suffix` ends `l` (Python `str.endswith`). -/
def endsWithChars (suffix l : List Char) : Bool :=
  startsWithChars suffix.reverse l.reverse

/-! ## Tag pattern

`_extract_tags` (src/extract.py line 409) and the tag stripping at line 474
use the hashtag regex: a `#`, then one word-or-slash character, then any
number of word, slash or hyphen characters, ending in a word character.
`tagMatchLen` returns the length of the greedy match starting right after a
`#`: the maximal run of word, slash or hyphen characters, backed off so its
last character is a word character, accepted if its first character is a
word-or-slash character and it is at least two characters long.  (Python's
word class is unicode; the ASCII classifier below covers the repository's
inputs.) -/

/-- Python's word-character class (ASCII fragment). -/
def isWordChar (c : Char) : Bool := c.isAlphanum || c == '_'

/-- Length of the greedy tag-pattern match at the start of `cs` (the part
after the `#`). -/
def tagMatchLen (cs : List Char) : Option Nat :=
  let run := cs.takeWhile (fun c => isWordChar c || c == '/' || c == '-')
  match run with
  | [] => none
  | c0 :: _ =>
    if isWordChar c0 || c0 == '/' then
      let trimmed := (run.reverse.dropWhile (fun c => !isWordChar c)).reverse
      if 2 ≤ trimmed.length then some trimmed.length else none
    else none

/-- `re.findall` of the tag pattern's capture group (the tag text without
the `#`), left to right, non-overlapping.  Fuel dominates the scan length. -/
def findTagsGo : Nat → List Char → List String
  | 0, _ => []
  | _, [] => []
  | fuel + 1, c :: cs =>
    if c == '#' then
      match tagMatchLen cs with
      | some n => String.mk (cs.take n) :: findTagsGo fuel (cs.drop n)
      | none => findTagsGo fuel cs
    else findTagsGo fuel cs

/-- `_extract_tags` (src/extract.py lines 409-412); Python wraps the result
in `set(...)`, so only membership in the result is meaningful. -/
def extractTags (s : String) : List String := findTagsGo s.data.length s.data

/-- `re.sub(tag_pattern, '', s)`: remove every tag match (with its `#`). -/
def stripTagsGo : Nat → List Char → List Char
  | 0, cs => cs
  | _, [] => []
  | fuel + 1, c :: cs =>
    if c == '#' then
      match tagMatchLen cs with
      | some n => stripTagsGo fuel (cs.drop n)
      | none => c :: stripTagsGo fuel cs
    else c :: stripTagsGo fuel cs

/-- Tag stripping used for the list-card test (src/extract.py line 474). -/
def stripTags (s : String) : String := String.mk (stripTagsGo s.data.length s.data)

/-! ## Direction detection -/

/-- `_detect_symbol_direction` (src/extract.py lines 170-179): bidirectional
is tested first because its glyph contains the other two. -/
def detectSymbolDirection (content : String) : Option SymbolDirection :=
  if strContains content (inlineSymbol .bidirectional) then some .bidirectional
  else if strContains content (inlineSymbol .forward) then some .forward
  else if strContains content (inlineSymbol .backward) then some .backward
  else none

/-- The direction classification inlined in `parse_regions_of_interest` of
src/main.py (lines 195-202), which tests the forward glyph first. -/
def mainDetectDirection (content : String) : Option SymbolDirection :=
  if strContains content (inlineSymbol .forward) then some .forward
  else if strContains content (inlineSymbol .backward) then some .backward
  else if strContains content (inlineSymbol .bidirectional) then some .bidirectional
  else none

/-! ## Decimal numerals

The cloze marker text interpolates the cloze number in decimal
(`f'{{{{c{cloze_num}:: '` in `_create_cloze_tokens`).  Decimal printing is
implemented explicitly so that the number can be proved recoverable from
the marker text. -/

/-- The decimal digit character for `d < 10`. -/
def digitChar : Nat → Char
  | 0 => '0' | 1 => '1' | 2 => '2' | 3 => '3' | 4 => '4'
  | 5 => '5' | 6 => '6' | 7 => '7' | 8 => '8' | 9 => '9'
  | _ => '*'

/-- Numeric value of a decimal digit character. -/
def digitVal (c : Char) : Nat := c.toNat - 48

/-- Decimal digits of `n`, most significant first; fuel dominates `n`. -/
def natToDigitsGo : Nat → Nat → List Char
  | 0, _ => []
  | fuel + 1, n =>
    if n < 10 then [digitChar n]
    else natToDigitsGo fuel (n / 10) ++ [digitChar (n % 10)]

/-- Decimal representation of `n` (Python `str(n)`). -/
def natToDigits (n : Nat) : List Char := natToDigitsGo (n + 1) n

/-- Value of a digit string, most significant first. -/
def natOfDigits (ds : List Char) : Nat := ds.foldl (fun a c => a * 10 + digitVal c) 0

/-! ## Cloze marker injection (src/extract.py lines 242-255) -/

/-- Content of the opening cloze marker produced by `_create_cloze_tokens`:
a space unless `is_list_item`, then an open-brace pair, `c`, the decimal
cloze number, and `:: `. -/
def clozeStartContent (n : Nat) (isListItem : Bool) : List Char :=
  (if isListItem then [] else [' ']) ++ ['\x7b', '\x7b', 'c'] ++ natToDigits n ++ [':', ':', ' ']

/-- `_create_cloze_tokens` (src/extract.py lines 242-247): the opening and
closing marker text tokens.  The `content` parameter is accepted and
ignored exactly as in the source (every call site passes `''`). -/
def createClozeTokens (content : String) (clozeNum : Nat) (isListItem : Bool) :
    ChildTok × ChildTok :=
  (⟨.text, 0, String.mk (clozeStartContent clozeNum isListItem)⟩,
   ⟨.text, 0, " \x7d\x7d"⟩)

/-- `_add_cloze_to_inline_token` (src/extract.py lines 250-255): wrap an
inline token's children in cloze markers; other token kinds are untouched. -/
def addClozeToInline (t : Tok) (clozeNum : Nat) (isListItem : Bool) : Tok :=
  if t.type = .inline then
    let p := createClozeTokens "" clozeNum isListItem
    { t with children := p.1 :: (t.children ++ [p.2]) }
  else t

/-- The `for token in cloze_tokens: if token.type == 'inline': ...; break`
loops of `_create_cloze_card`: cloze the first inline token, keep the rest. -/
def clozeFirstInline (ts : List Tok) (clozeNum : Nat) (isListItem : Bool) : List Tok :=
  match ts with
  | [] => []
  | t :: rest =>
    if t.type = .inline then addClozeToInline t clozeNum isListItem :: rest
    else t :: clozeFirstInline rest clozeNum isListItem

/-- The incremental numbering loop of `_create_cloze_card` (src/extract.py
lines 306-319) over the back token list, carrying the current nesting
depth (a Python int: the trailing close of the outer item drives it to -1)
and the current cloze index. -/
def clozeBack (incremental : Bool) (nesting : Int) (idx : Nat) : List Tok → List Tok
  | [] => []
  | t :: rest =>
    if t.type = .list_item_open then
      t :: clozeBack incremental (nesting + 1) idx rest
    else if t.type = .list_item_close then
      let n := nesting - 1
      let idx' := if n = 0 ∧ incremental then idx + 1 else idx
      t :: clozeBack incremental n idx' rest
    else if 0 < nesting ∧ t.type = .inline then
      addClozeToInline t (if incremental then idx else 1) true
        :: clozeBack incremental nesting idx rest
    else
      t :: clozeBack incremental nesting idx rest

/-- `is_inline_card` (src/extract.py line 276): the back token list is a
single inline token. -/
def isInlineCardBack : List Tok → Bool
  | [t] => t.type = .inline
  | _ => false

/-- The token sequence assembled by `_create_cloze_card` (src/extract.py
lines 276-321) before rendering: which side is clozed and in which order
the sides are emitted, per direction. -/
def createClozeCardTokens (front back : List Tok) (dir : SymbolDirection)
    (incremental : Bool) : List Tok :=
  if dir = .backward then
    if isInlineCardBack back then
      (clozeFirstInline front.reverse 1 false).reverse ++ back
    else
      clozeFirstInline front 1 false ++ back
  else
    if isInlineCardBack back then
      front ++ clozeFirstInline back 1 false
    else
      front ++ clozeBack incremental 0 1 back

/-- The note built by `_create_cloze_card` (src/extract.py lines 323-330):
cloze model, fields `[FilePath, Context, Text]` with `Context` absent from
the field dict (hence empty), `Text` the list context followed by the
rendered synthesized tokens. -/
def createClozeCard (env : Env) (front back : List Tok) (dir : SymbolDirection)
    (incremental : Bool) (tags : List String)
    (filepathContext listContext : String) : Note :=
  { model := .clozeContext
    fields := [filepathContext, "",
      listContext ++ env.render (createClozeCardTokens front back dir incremental)]
    tags := tags }

/-! ## Reading cloze numbers back out of synthesized tokens -/

/-- Recover the cloze number from an opening cloze marker child: an
optional leading space, an open-brace pair, `c`, a nonempty digit run, and
`:: `.  Children that are not opening markers yield `none`. -/
def clozeStartNum (c : ChildTok) : Option Nat :=
  let cs := match c.content.data with
    | ' ' :: rest => rest
    | l => l
  match cs with
  | '\x7b' :: '\x7b' :: 'c' :: rest =>
    let ds := rest.takeWhile Char.isDigit
    if ds.isEmpty then none
    else if rest.dropWhile Char.isDigit = [':', ':', ' '] then some (natOfDigits ds)
    else none
  | _ => none

/-- Cloze numbers opened within one token's children, in order. -/
def clozeNumsOfTok (t : Tok) : List Nat := t.children.filterMap clozeStartNum

/-- Cloze numbers opened within a token list, in document order. -/
def clozeNums (ts : List Tok) : List Nat := (ts.map clozeNumsOfTok).flatten

/-- The numbering discipline claimed for synthesized cards: every assigned
number is at least 1 and every positive number below it is also assigned
("start at 1 and increase without gaps"). -/
def gaplessFrom1 (l : List Nat) : Bool :=
  l.all (fun n => decide (1 ≤ n) && (List.range' 1 n).all (fun m => l.contains m))

/-! ## The double-tilde cloze pattern

`_parse_regions_of_interest` tests `inline.content` against the regex
"double tilde, a non-space character, optionally any (non-newline)
characters up to a final non-space character, double tilde"
(src/extract.py line 219).  A search succeeds exactly when some pair of
positions delimits such a span. -/

/-- A valid cloze span runs from a double tilde at `i` to one at `j`. -/
def clozeMatchAt (cs : List Char) (i j : Nat) : Bool :=
  (cs.get? i == some '~') && (cs.get? (i+1) == some '~') &&
  (cs.get? j == some '~') && (cs.get? (j+1) == some '~') &&
  decide (i + 3 ≤ j) &&
  (match cs.get? (i+2) with | some c => !c.isWhitespace | none => false) &&
  (match cs.get? (j-1) with | some c => !c.isWhitespace | none => false) &&
  ((cs.drop (i+2)).take (j - (i+2))).all (fun c => c ≠ '\n')

/-- Whether the cloze pattern search succeeds on `s`. -/
def hasClozeMatch (s : String) : Bool :=
  (List.range s.data.length).any fun i =>
    (List.range s.data.length).any fun j => clozeMatchAt s.data i j

/-! ## Region scanner (`_parse_regions_of_interest`, src/extract.py 182-239) -/

/-- First index `l ≥ j` with `p tokens[l]`; fuel dominates the scan. -/
def findFromGo (tokens : List Tok) (p : Tok → Bool) : Nat → Nat → Option Nat
  | 0, _ => none
  | fuel + 1, j =>
    match tokens[j]? with
    | none => none
    | some t => if p t then some j else findFromGo tokens p fuel (j + 1)

/-- First index `l ≥ j` satisfying `p`, if any. -/
def findFrom (tokens : List Tok) (p : Tok → Bool) (j : Nat) : Option Nat :=
  findFromGo tokens p (tokens.length - j) j

/-- The `for l in range(j + 1, len(tokens))` scan for the matching close
(src/extract.py lines 205-207): first list-item-close after the inline at
`j` whose level equals the opening token's level.  When no such token
exists the Python loop simply runs out, leaving `l` at the last index, so
that value is returned here. -/
def findCloseIndex (tokens : List Tok) (j : Nat) (openLevel : Nat) : Nat :=
  match findFrom tokens
      (fun t => t.type == .list_item_close && t.level == openLevel) (j + 1) with
  | some l => l
  | none => tokens.length - 1

/-- The `for k, child in enumerate(inline.children)` scan (src/extract.py
lines 198-216): index and direction of the first level-0 text child whose
content contains a direction glyph. -/
def symbolChildScan (k : Nat) : List ChildTok → Option (Nat × SymbolDirection)
  | [] => none
  | c :: cs =>
    if c.type = .text ∧ c.level = 0 then
      match detectSymbolDirection c.content with
      | some d => some (k, d)
      | none => symbolChildScan (k + 1) cs
    else symbolChildScan (k + 1) cs

/-- Regions contributed by one inline token at position `j` inside the list
item opened at `i`: at most one card region (first glyph-bearing child) and
at most one cloze region (`md.parseInline` applied to the rewritten content
is the external `parseInlineCloze`). -/
def scanInlineTok (env : Env) (tokens : List Tok) (i : Nat) (openLevel : Nat)
    (j : Nat) (t : Tok) : List IndexCard × List IndexCloze :=
  let cards := match symbolChildScan 0 t.children with
    | some kd =>
      [{ list_open_token_index := i, inline_token_index := j,
         symbol_child_index := kd.1, symbol_direction := kd.2,
         list_close_token_index := findCloseIndex tokens j openLevel }]
    | none => []
  let clozes := if hasClozeMatch t.content then
      [{ list_open_token_index := i, inline_token_index := j,
         clozed_tokens := env.parseInlineCloze t.content }]
    else []
  (cards, clozes)

/-- The inner `for j in range(i + 1, len(tokens))` loop of the scanner:
process every inline token until a list-item-close, bullet-list-open or
ordered-list-open ends the item.  Fuel dominates the scan. -/
def scanItemGo (env : Env) (tokens : List Tok) (i : Nat) (openLevel : Nat) :
    Nat → Nat → List IndexCard × List IndexCloze
  | 0, _ => ([], [])
  | fuel + 1, j =>
    match tokens[j]? with
    | none => ([], [])
    | some t =>
      if t.type = .inline then
        let here := scanInlineTok env tokens i openLevel j t
        let rest := scanItemGo env tokens i openLevel fuel (j + 1)
        (here.1 ++ rest.1, here.2 ++ rest.2)
      else if t.type = .list_item_close ∨ t.type = .bullet_list_open ∨
          t.type = .ordered_list_open then
        ([], [])
      else scanItemGo env tokens i openLevel fuel (j + 1)

/-- Regions found inside the list item opened at index `i`. -/
def scanItem (env : Env) (tokens : List Tok) (i : Nat) (openLevel : Nat) :
    List IndexCard × List IndexCloze :=
  scanItemGo env tokens i openLevel (tokens.length - (i + 1)) (i + 1)

/-- The outer `for i, token in enumerate(tokens)` loop of the scanner. -/
def parseRegionsGo (env : Env) (tokens : List Tok) :
    Nat → Nat → List IndexCard × List IndexCloze
  | 0, _ => ([], [])
  | fuel + 1, i =>
    match tokens[i]? with
    | none => ([], [])
    | some t =>
      let rest := parseRegionsGo env tokens fuel (i + 1)
      if t.type = .list_item_open then
        let r := scanItem env tokens i t.level
        (r.1 ++ rest.1, r.2 ++ rest.2)
      else rest

/-- `_parse_regions_of_interest` (src/extract.py lines 182-239). -/
def parseRegionsOfInterest (env : Env) (tokens : List Tok) :
    List IndexCard × List IndexCloze :=
  parseRegionsGo env tokens tokens.length 0

/-! ## Context builder (src/extract.py lines 333-406) -/

/-- `int(token.tag[1])` for heading tags such as "h2".  (The source would
raise on a malformed tag; heading tokens always carry "h1".."h6", and a
default of 0 stands in for the unreachable error case.) -/
def headingLevelOf (tag : String) : Int :=
  match tag.data.get? 1 with
  | some c => (digitVal c : Int)
  | none => 0

/-- Mutable state of the backward walk in `_find_prior_context`. -/
structure CtxState where
  acc : List Tok
  minLevel : Int
  listSearch : Bool
  inHeading : Bool
  minHeading : Int
  skipping : Bool

/-- One step of the backward walk of `_find_prior_context` (src/extract.py
lines 352-384), processing the next earlier token. -/
def ctxStep (s : CtxState) (t : Tok) : CtxState :=
  if s.listSearch then
    let isClose := t.type = .list_item_close ∨ t.type = .bullet_list_close ∨
      t.type = .ordered_list_close
    let minLevel : Int := if isClose then (t.level : Int) - 1 else s.minLevel
    let skipping := if isClose then true else s.skipping
    if skipping ∧ minLevel < (t.level : Int) then
      { s with minLevel := minLevel, skipping := true }
    else
      { s with
        minLevel := minLevel
        skipping := false
        acc := s.acc ++ [t]
        listSearch := ¬ t.level = 0 }
  else
    let entering := t.type = .heading_close ∧ headingLevelOf t.tag < s.minHeading
    let inHeading := if entering then true else s.inHeading
    let minHeading := if entering then headingLevelOf t.tag else s.minHeading
    let acc := if inHeading then s.acc ++ [t] else s.acc
    let inHeading := if t.type = .heading_open then false else inHeading
    { s with acc := acc, inHeading := inHeading, minHeading := minHeading }

/-- `_find_prior_context` (src/extract.py lines 333-386).  The walk covers
`tokens[list_open_token_index-1:None:-1]`; note that for index 0 that
Python slice wraps around to the whole list reversed, which is modelled
exactly.  The final reversal restores document order. -/
def findPriorContext (tokens : List Tok) (openIdx : Nat) : List Tok :=
  let walk := if openIdx = 0 then tokens.reverse else (tokens.take openIdx).reverse
  let lvl : Int := ((tokens[openIdx]?.map (fun t => (t.level : Int))).getD 0)
  let s0 : CtxState :=
    { acc := [], minLevel := lvl - 1, listSearch := true,
      inHeading := false, minHeading := 6, skipping := false }
  (walk.foldl ctxStep s0).acc

/-- The trailing-closing-tag stripper `_strip_trailing_closing_tags`
(src/extract.py lines 389-394); each iteration removes at least five
characters, so fuel equal to the length dominates the loop. -/
def stripTrailingGo : Nat → List Char → List Char
  | 0, cs => cs
  | fuel + 1, cs =>
    if endsWithChars "</ul>".data cs || endsWithChars "</li>".data cs then
      stripTrailingGo fuel (rstripChars (cs.take (cs.length - 5)))
    else cs

/-- `_strip_trailing_closing_tags` on strings. -/
def stripTrailingClosingTags (s : String) : String :=
  let cs := pyStripChars s.data
  String.mk (stripTrailingGo cs.length cs)

/-- `_build_context` (src/extract.py lines 397-406). -/
def buildContext (env : Env) (tokens : List Tok) (openIdx : Nat)
    (fileFrontContext filepathContext : String) (hasFileCard : Bool) :
    String × String :=
  let ctxTokens := findPriorContext tokens openIdx
  let listContext := if ctxTokens.isEmpty then "" else env.render ctxTokens
  let listContext := stripTrailingClosingTags listContext
  (listContext ++ (if hasFileCard then fileFrontContext else ""), filepathContext)

/-! ## Reading a file (src/extract.py lines 105-129) -/

/-- The html-comment filter of `read_file` (src/extract.py lines 115-118). -/
def isHtmlComment (t : Tok) : Bool :=
  (t.type == .html_inline || t.type == .html_block) &&
    startsWithChars "<!--".data (pyStripChars t.content.data)

/-- `read_file` after the external parse: filter html comments, then probe
`tokens[0]` for front matter.  On an empty token list the probe raises
IndexError. -/
def readFileTokens (env : Env) (tokens : List Tok) :
    Except PyErr (List Tok × List String) :=
  let toks := tokens.filter (fun t => !isHtmlComment t)
  match toks with
  | [] => .error .indexError
  | t :: rest =>
    if t.type = .front_matter then .ok (rest, env.yamlTags t.content)
    else .ok (toks, [])

/-! ## `extract_cards` (src/extract.py lines 415-552) -/

/-- Python `l[a:b]` for `a ≤ b` nonnegative slices. -/
def listSlice (l : List Tok) (a b : Nat) : List Tok := (l.drop a).take (b - a)

/-- `List.range' a (b - a)`: the index range `range(a, b)`. -/
def listRange (a b : Nat) : List Nat := List.range' a (b - a)

/-- The file-flashcard stage of `extract_cards` (src/extract.py lines
427-454): when the front matter declares `card`, split the raw text on the
delimiter with maxsplit 3 and unpack elements 2 and 3 (a ValueError when
fewer than three delimiters occur), then build either the incremental
cloze note or the basic front/back note, and remember the rendered front
as file-front context. -/
def fileCardStage (env : Env) (text : String) (tags : List String)
    (filepathContext : String) : Except PyErr (List Note × String) :=
  if tags.contains "card" then
    match (pySplitMax text "---\n" 3).drop 2 with
    | [frontText, backText] =>
      let frontTokens := env.parseBlocks frontText
      let backTokens := env.parseBlocks backText
      let note :=
        if tags.contains "incremental" then
          createClozeCard env frontTokens backTokens .forward true tags
            filepathContext ""
        else
          { model := .basicContext
            fields := [filepathContext, "", env.render frontTokens,
              env.render backTokens]
            tags := tags }
      .ok ([note], env.render frontTokens)
    | _ => .error .valueError
  else .ok ([], "")

/-- The immediate-nested-bullet-list test for list-card candidates
(src/extract.py lines 478-482), including the (vacuous) paragraph filter
of the generator expression. -/
def hasImmediateNestedList (tokens : List Tok) (region : IndexCard) : Bool :=
  ((listRange (region.inline_token_index + 1) region.list_close_token_index).filter
    (fun j => !((tokens[j]?.map (fun t =>
      t.type == .paragraph_open || t.type == .paragraph_close)).getD false))).any
    (fun j => (tokens[j]?.map (fun t => t.type == .bullet_list_open)).getD false)

/-- The body of the `for region in card_indices` loop (src/extract.py lines
461-532).  Returns the value the loop leaves in the `tags` variable
together with the note it appends, if any (`none` models the silent
`continue` for an invalid list card).  Out-of-range accesses and failed
unpackings map to the corresponding Python exceptions. -/
def processCardRegion (env : Env) (tokens : List Tok)
    (fileFrontContext filepathContext : String) (region : IndexCard) :
    Except PyErr (List String × Option Note) :=
  match tokens[region.inline_token_index]? with
  | none => .error .indexError
  | some inlineToken =>
  match inlineToken.children[region.symbol_child_index]? with
  | none => .error .indexError
  | some child =>
  let symbolText := inlineSymbol region.symbol_direction
  match pySplit1 child.content symbolText with
  | [leftText, rightText] =>
    match pySplit1 inlineToken.content symbolText with
    | [_, fullContentAfterSymbol] =>
      let tags := extractTags fullContentAfterSymbol
      let contentWithoutTags := pyStrip (stripTags fullContentAfterSymbol)
      let isListCard := contentWithoutTags = ""
      let frontBack : Option (List Tok × List Tok) :=
        if isListCard then
          if hasImmediateNestedList tokens region then
            let modifiedChild :=
              { child with content := leftText ++ symbolText ++ rightText }
            let newChildren :=
              inlineToken.children.take region.symbol_child_index ++
                [modifiedChild] ++
                inlineToken.children.drop (region.symbol_child_index + 1)
            let modifiedInline := { inlineToken with children := newChildren }
            some (listSlice tokens region.list_open_token_index
                    region.inline_token_index ++ [modifiedInline],
                  listSlice tokens (region.inline_token_index + 1)
                    (region.list_close_token_index + 1))
          else none
        else
          let leftChild := { child with content := leftText ++ symbolText }
          let rightChild := { child with content := rightText }
          let frontChildren :=
            inlineToken.children.take region.symbol_child_index ++ [leftChild]
          let backChildren :=
            if pyStrip rightText = "" then []
            else rightChild ::
              inlineToken.children.drop (region.symbol_child_index + 1)
          let frontInline := { inlineToken with children := frontChildren }
          let backInline := { inlineToken with children := backChildren }
          some (listSlice tokens region.list_open_token_index
                  region.inline_token_index ++ [frontInline],
                if backChildren.isEmpty then [] else [backInline])
      match frontBack with
      | none => .ok (tags, none)
      | some (frontTokens, backTokens) =>
        let ctx := buildContext env tokens region.list_open_token_index
          fileFrontContext filepathContext (tags.contains "card")
        let isIncremental := tags.contains "incremental"
        .ok (tags, some (createClozeCard env frontTokens backTokens
          region.symbol_direction isIncremental tags ctx.2 ctx.1))
    | _ => .error .indexError
  | _ => .error .valueError

/-- Just the reassignment `tags = _extract_tags(...)` performed by the loop
body (src/extract.py lines 467-468), abstracted from note building. -/
def regionTagUpdate (tokens : List Tok) (region : IndexCard) :
    Except PyErr (List String) :=
  match tokens[region.inline_token_index]? with
  | none => .error .indexError
  | some inlineToken =>
    match pySplit1 inlineToken.content (inlineSymbol region.symbol_direction) with
    | [_, fullContentAfterSymbol] => .ok (extractTags fullContentAfterSymbol)
    | _ => .error .indexError

/-- The value left in the `tags` variable after iterating the card-region
loop over `regions`, starting from the front-matter tags. -/
def leftoverTags (tokens : List Tok) : List IndexCard → List String →
    Except PyErr (List String)
  | [], tags => .ok tags
  | r :: rs, tags =>
    match regionTagUpdate tokens r with
    | .error e => .error e
    | .ok tags' => leftoverTags tokens rs tags'

/-- The `for region in card_indices` loop: threads the `tags` variable and
accumulates appended notes. -/
def cardLoop (env : Env) (tokens : List Tok)
    (fileFrontContext filepathContext : String) :
    List IndexCard → List String → List Note →
    Except PyErr (List String × List Note)
  | [], tags, notes => .ok (tags, notes)
  | r :: rs, tags, notes =>
    match processCardRegion env tokens fileFrontContext filepathContext r with
    | .error e => .error e
    | .ok (tags', note?) =>
      cardLoop env tokens fileFrontContext filepathContext rs tags'
        (notes ++ note?.toList)

/-- The body of the `for region in cloze_indices` loop (src/extract.py
lines 534-550): the note's tags are whatever the `tags` variable holds. -/
def mkClozeRegionNote (env : Env) (tokens : List Tok)
    (fileFrontContext filepathContext : String) (tags : List String)
    (region : IndexCloze) : Note :=
  let ctx := buildContext env tokens region.list_open_token_index
    fileFrontContext filepathContext (tags.contains "card")
  let textTokens := listSlice tokens region.list_open_token_index
    region.inline_token_index ++ region.clozed_tokens
  { model := .clozeContext
    fields := [ctx.2, "", ctx.1 ++ env.render textTokens]
    tags := tags }

/-- `extract_cards` (src/extract.py lines 415-552) after `read_file`: the
raw text, the indexed token stream and the front-matter tags are its
inputs, `filepathContext` is `_build_filepath_context(file_path)`. -/
def extractCards (env : Env) (text : String) (tokens : List Tok)
    (frontMatterTags : List String) (filepathContext : String) :
    Except PyErr (List Note) :=
  match fileCardStage env text frontMatterTags filepathContext with
  | .error e => .error e
  | .ok (fileNotes, fileFrontContext) =>
    let regions := parseRegionsOfInterest env tokens
    match cardLoop env tokens fileFrontContext filepathContext regions.1
        frontMatterTags [] with
    | .error e => .error e
    | .ok (finalTags, cardNotes) =>
      let clozeNotes := regions.2.map
        (mkClozeRegionNote env tokens fileFrontContext filepathContext finalTags)
      .ok (fileNotes ++ cardNotes ++ clozeNotes)

/-- `extract_cards` including the token-stream preprocessing of
`read_file`: `rawTokens` is the external `md.parse` output. -/
def extractCardsFromParse (env : Env) (text : String) (rawTokens : List Tok)
    (filepathContext : String) : Except PyErr (List Note) :=
  match readFileTokens env rawTokens with
  | .error e => .error e
  | .ok (tokens, tags) => extractCards env text tokens tags filepathContext

/-! ## The placeholder renumbering loop (src/extract.py lines 218-233)

`cloze_pattern.sub` rewrites every double-tilde span into a placeholder
`c0` cloze span, after which the rewritten string is an alternation of
plain segments (free of placeholder openings) and placeholder openings.
The `while` loop then repeatedly replaces the leftmost remaining
placeholder index with the next counter value, i.e. it numbers the
placeholders from left to right starting at 1.  The loop is modelled at
this segment granularity. -/

/-- A segment of the rewritten cloze content: plain text, a still
unnumbered placeholder opening (with the span text it carries), or an
already renumbered opening. -/
inductive RSeg where
  | txt (s : String)
  | placeholder (s : String)
  | numbered (n : Nat) (s : String)
  deriving DecidableEq

/-- Whether a segment is still un-renumbered input (no `numbered`). -/
def isRawSeg : RSeg → Bool
  | .numbered _ _ => false
  | _ => true

/-- The renumbering `while` loop: each iteration turns the leftmost
remaining placeholder into the current counter value and increments the
counter — a single left-to-right pass. -/
def renumberSegs (m : Nat) : List RSeg → List RSeg
  | [] => []
  | .placeholder s :: rest => .numbered m s :: renumberSegs (m + 1) rest
  | seg :: rest => seg :: renumberSegs m rest

/-- The cloze numbers carried by a segment list, in order. -/
def segNums (l : List RSeg) : List Nat :=
  l.filterMap (fun s => match s with | .numbered n _ => some n | _ => none)

/-- Number of placeholders in a segment list. -/
def countPlaceholders (l : List RSeg) : Nat :=
  (l.filter (fun s => match s with | .placeholder _ => true | _ => false)).length

/-! ## Well-shaped back content

To reason about the incremental numbering loop on arbitrary (not just
closed) back content, nested list structure is represented as a forest and
flattened to the token stream shape markdown-it produces: every list item
becomes a list-item-open, its flattened contents, and a list-item-close. -/

/-- A back-content tree: a non-list-item token, or a list item containing
a forest. -/
inductive BTok where
  | leaf (t : Tok)
  | item (ts : List BTok)

/-- The list-item-open/close tokens markdown-it produces (levels are
irrelevant to the numbering loop). -/
def liOpenTok : Tok := ⟨.list_item_open, "li", 0, "", []⟩

/-- The matching list-item-close token. -/
def liCloseTok : Tok := ⟨.list_item_close, "li", 0, "", []⟩

mutual

/-- Flatten one back-content tree to its token stream. -/
def flattenB : BTok → List Tok
  | .leaf t => [t]
  | .item ts => liOpenTok :: flattenForest ts ++ [liCloseTok]

/-- Flatten a forest of back-content trees. -/
def flattenForest : List BTok → List Tok
  | [] => []
  | b :: bs => flattenB b ++ flattenForest bs

end

mutual

/-- Leaves are tokens other than list-item-open/close that carry no cloze
markers of their own (true of every token markdown-it produces). -/
def leafOK : BTok → Bool
  | .leaf t => !(t.type == .list_item_open) && !(t.type == .list_item_close) &&
      (clozeNumsOfTok t).isEmpty
  | .item ts => leavesOK ts

/-- `leafOK` on every tree of a forest. -/
def leavesOK : List BTok → Bool
  | [] => true
  | b :: bs => leafOK b && leavesOK bs

end

mutual

/-- Number of inline-token leaves in a tree (at any depth). -/
def inlineCountB : BTok → Nat
  | .leaf t => if t.type = .inline then 1 else 0
  | .item ts => inlineCountForest ts

/-- Number of inline-token leaves in a forest. -/
def inlineCountForest : List BTok → Nat
  | [] => 0
  | b :: bs => inlineCountB b + inlineCountForest bs

end

/-- Number of top-level items in a forest. -/
def itemCount : List BTok → Nat
  | [] => 0
  | .item _ :: bs => itemCount bs + 1
  | .leaf _ :: bs => itemCount bs

/-- Whether every top-level item of the forest contains at least one
inline token. -/
def itemsHaveInline : List BTok → Bool
  | [] => true
  | .item ts :: bs => decide (1 ≤ inlineCountForest ts) && itemsHaveInline bs
  | .leaf _ :: bs => itemsHaveInline bs

/-- Total number of inline tokens inside the top-level items of a forest
(top-level leaves excluded): with `incremental` unset these are exactly the
inline tokens the numbering loop clozes (all with number 1). -/
def inlineCountInItems : List BTok → Nat
  | [] => 0
  | .leaf _ :: bs => inlineCountInItems bs
  | .item ts :: bs => inlineCountForest ts + inlineCountInItems bs

/-- The cloze numbers the incremental loop assigns over a flattened
forest, starting from counter value `idx`: the inline tokens of the k-th
top-level item all receive the k-th counter value; top-level leaves are
outside any item and receive none. -/
def numsTop : List BTok → Nat → List Nat
  | [], _ => []
  | .leaf _ :: bs, idx => numsTop bs idx
  | .item ts :: bs, idx => List.replicate (inlineCountForest ts) idx ++ numsTop bs (idx + 1)

/-! ## Concrete token streams used as closed inputs -/

/-- Paragraph-open wrapper token. -/
def pOpenTok : Tok := ⟨.paragraph_open, "p", 0, "", []⟩

/-- Paragraph-close wrapper token. -/
def pCloseTok : Tok := ⟨.paragraph_close, "p", 0, "", []⟩

/-- Bullet-list-open wrapper token. -/
def blOpenTok : Tok := ⟨.bullet_list_open, "ul", 0, "", []⟩

/-- Bullet-list-close wrapper token. -/
def blCloseTok : Tok := ⟨.bullet_list_close, "ul", 0, "", []⟩

/-- An inline token with a single text child. -/
def mkInlineTok (s : String) : Tok := ⟨.inline, "", 0, s, [⟨.text, 0, s⟩]⟩

/-- The back-token shape of a list card whose back consists of three
top-level list items, each carrying one inline token: the slice
`tokens[inline+1 : close+1]` of the real stream — the closing paragraph of
the question line, the nested bullet list with its three items, and the
outer item's own close. -/
def backOfThree (t1 t2 t3 : Tok) : List Tok :=
  [pCloseTok, blOpenTok,
   liOpenTok, pOpenTok, t1, pCloseTok, liCloseTok,
   liOpenTok, pOpenTok, t2, pCloseTok, liCloseTok,
   liOpenTok, pOpenTok, t3, pCloseTok, liCloseTok,
   blCloseTok, liCloseTok]

/-- The forest whose flattening (followed by the outer item's close) is
`backOfThree`. -/
def forestOfThree (t1 t2 t3 : Tok) : List BTok :=
  [.leaf pCloseTok, .leaf blOpenTok,
   .item [.leaf pOpenTok, .leaf t1, .leaf pCloseTok],
   .item [.leaf pOpenTok, .leaf t2, .leaf pCloseTok],
   .item [.leaf pOpenTok, .leaf t3, .leaf pCloseTok],
   .leaf blCloseTok]

/-- Back content whose second top-level item is empty (markdown `-` with no
content yields a bare list-item-open/close pair): the middle item carries
no inline token. -/
def backWithEmptyItem : List Tok :=
  [pCloseTok, blOpenTok,
   liOpenTok, pOpenTok, mkInlineTok "a", pCloseTok, liCloseTok,
   liOpenTok, liCloseTok,
   liOpenTok, pOpenTok, mkInlineTok "c", pCloseTok, liCloseTok,
   blCloseTok, liCloseTok]

/-- The markdown-it token stream of the document `- Q ==> #tag` (a single
tight list item, no nested list). -/
def c3Tokens : List Tok :=
  [⟨.bullet_list_open, "ul", 0, "", []⟩,
   ⟨.list_item_open, "li", 1, "", []⟩,
   ⟨.paragraph_open, "p", 2, "", []⟩,
   ⟨.inline, "", 3, "Q ==> #tag", [⟨.text, 0, "Q ==> #tag"⟩]⟩,
   ⟨.paragraph_close, "p", 2, "", []⟩,
   ⟨.list_item_close, "li", 1, "", []⟩,
   ⟨.bullet_list_close, "ul", 0, "", []⟩]

/-- The markdown-it token stream of the two-item document
`- A ==> #foo` / `- B ~~ans~~`: an invalid separator-card candidate
carrying tag `foo`, followed by a double-tilde cloze line. -/
def c9Tokens : List Tok :=
  [⟨.bullet_list_open, "ul", 0, "", []⟩,
   ⟨.list_item_open, "li", 1, "", []⟩,
   ⟨.paragraph_open, "p", 2, "", []⟩,
   ⟨.inline, "", 3, "A ==> #foo", [⟨.text, 0, "A ==> #foo"⟩]⟩,
   ⟨.paragraph_close, "p", 2, "", []⟩,
   ⟨.list_item_close, "li", 1, "", []⟩,
   ⟨.list_item_open, "li", 1, "", []⟩,
   ⟨.paragraph_open, "p", 2, "", []⟩,
   ⟨.inline, "", 3, "B ~~ans~~", [⟨.text, 0, "B ~~ans~~"⟩]⟩,
   ⟨.paragraph_close, "p", 2, "", []⟩,
   ⟨.list_item_close, "li", 1, "", []⟩,
   ⟨.bullet_list_close, "ul", 0, "", []⟩]

/-! ## Helper lemmas: cloze numbers of synthesized tokens -/

theorem clozeNums_nil : clozeNums [] = [] := rfl

theorem clozeNums_cons (t : Tok) (ts : List Tok) :
    clozeNums (t :: ts) = clozeNumsOfTok t ++ clozeNums ts := by
  simp [clozeNums]

theorem clozeNums_append (a b : List Tok) :
    clozeNums (a ++ b) = clozeNums a ++ clozeNums b := by
  simp [clozeNums]

theorem clozeNums_eq_nil_iff (ts : List Tok) :
    clozeNums ts = [] ↔ ∀ t ∈ ts, clozeNumsOfTok t = [] := by
  induction ts with
  | nil => simp [clozeNums]
  | cons t ts ih => simp [clozeNums_cons, ih]

theorem clozeNums_reverse_nil (ts : List Tok) (h : clozeNums ts = []) :
    clozeNums ts.reverse = [] := by
  rw [clozeNums_eq_nil_iff] at h ⊢
  intro t ht
  exact h t (List.mem_reverse.mp ht)

theorem digitVal_digitChar (d : Nat) (h : d < 10) :
    digitVal (digitChar d) = d := by
  interval_cases d <;> decide

theorem isDigit_digitChar (d : Nat) (h : d < 10) :
    (digitChar d).isDigit = true := by
  interval_cases d <;> decide

theorem natOfDigits_append_digit (a : List Char) (c : Char) :
    natOfDigits (a ++ [c]) = natOfDigits a * 10 + digitVal c := by
  simp [natOfDigits, List.foldl_append]

theorem natToDigitsGo_spec (fuel : Nat) :
    ∀ n, n < fuel → natOfDigits (natToDigitsGo fuel n) = n ∧
      (∀ c ∈ natToDigitsGo fuel n, c.isDigit = true) ∧
      natToDigitsGo fuel n ≠ [] := by
  induction fuel with
  | zero => intro n hn; omega
  | succ fuel ih =>
    intro n hn
    by_cases h10 : n < 10
    · refine ⟨?_, ?_, ?_⟩
      · simp [natToDigitsGo, h10, natOfDigits, digitVal_digitChar n h10]
      · simp only [natToDigitsGo, if_pos h10]
        intro c hc
        simp at hc
        subst hc
        exact isDigit_digitChar n h10
      · simp [natToDigitsGo, h10]
    · have hdiv : n / 10 < fuel := by
        have h1 : n / 10 < n := Nat.div_lt_self (by omega) (by omega)
        omega
      obtain ⟨ihv, ihd, ihne⟩ := ih (n / 10) hdiv
      refine ⟨?_, ?_, ?_⟩
      · simp only [natToDigitsGo, if_neg h10]
        rw [natOfDigits_append_digit, ihv, digitVal_digitChar _ (Nat.mod_lt _ (by omega))]
        omega
      · simp only [natToDigitsGo, if_neg h10]
        intro c hc
        rcases List.mem_append.mp hc with hc | hc
        · exact ihd c hc
        · simp at hc
          subst hc
          exact isDigit_digitChar _ (Nat.mod_lt _ (by omega))
      · simp [natToDigitsGo, h10]

theorem natOfDigits_natToDigits (n : Nat) : natOfDigits (natToDigits n) = n :=
  (natToDigitsGo_spec (n + 1) n (by omega)).1

theorem natToDigits_all_digits (n : Nat) :
    ∀ c ∈ natToDigits n, c.isDigit = true :=
  (natToDigitsGo_spec (n + 1) n (by omega)).2.1

theorem natToDigits_ne_nil (n : Nat) : natToDigits n ≠ [] :=
  (natToDigitsGo_spec (n + 1) n (by omega)).2.2

theorem takeWhile_digits_append (a : List Char) (b : List Char)
    (ha : ∀ c ∈ a, c.isDigit = true) (hb : b.head?.all (fun c => !c.isDigit)) :
    (a ++ b).takeWhile Char.isDigit = a ∧ (a ++ b).dropWhile Char.isDigit = b := by
  induction a with
  | nil =>
    constructor
    · cases b with
      | nil => rfl
      | cons c cs =>
        simp only [Option.all_some, List.head?_cons] at hb
        have hcd : c.isDigit = false := by
          cases hd : c.isDigit
          · rfl
          · rw [hd] at hb; simp at hb
        simp [List.takeWhile, hcd]
    · cases b with
      | nil => rfl
      | cons c cs =>
        simp only [Option.all_some, List.head?_cons] at hb
        have hcd : c.isDigit = false := by
          cases hd : c.isDigit
          · rfl
          · rw [hd] at hb; simp at hb
        simp [List.dropWhile, hcd]
  | cons c cs ih =>
    have hc : c.isDigit = true := ha c (by simp)
    have ihr := ih (fun x hx => ha x (by simp [hx]))
    constructor
    · simp [List.takeWhile, hc, ihr.1]
    · simp [List.dropWhile, hc, ihr.2]

theorem clozeStartNum_marker (n : Nat) (b : Bool) :
    clozeStartNum (createClozeTokens "" n b).1 = some n := by
  have hall := natToDigits_all_digits n
  have hne := natToDigits_ne_nil n
  have hsplit := takeWhile_digits_append (natToDigits n) [':', ':', ' '] hall (by decide)
  cases b <;>
    simp_all [clozeStartNum, createClozeTokens, clozeStartContent,
      List.isEmpty_iff, natOfDigits_natToDigits]

theorem clozeStartNum_endMarker : clozeStartNum (createClozeTokens "" 0 false).2 = none := by
  decide

theorem clozeNumsOfTok_addCloze (t : Tok) (n : Nat) (b : Bool)
    (h : t.type = .inline) :
    clozeNumsOfTok (addClozeToInline t n b) = n :: clozeNumsOfTok t := by
  simp only [addClozeToInline, if_pos h, clozeNumsOfTok]
  rw [List.filterMap_cons, List.filterMap_append]
  have h1 : clozeStartNum (createClozeTokens "" n b).1 = some n := clozeStartNum_marker n b
  have h2 : clozeStartNum (createClozeTokens "" n b).2 = none := rfl
  simp [h1, h2]

theorem addClozeToInline_of_ne (t : Tok) (n : Nat) (b : Bool)
    (h : ¬ t.type = .inline) : addClozeToInline t n b = t := by
  simp [addClozeToInline, h]

theorem clozeFirstInline_decomp (n : Nat) (b : Bool) (ts : List Tok)
    (h : ∃ t ∈ ts, t.type = .inline) :
    ∃ pre t post, ts = pre ++ t :: post ∧ t.type = .inline ∧
      (∀ u ∈ pre, ¬ u.type = .inline) ∧
      clozeFirstInline ts n b = pre ++ addClozeToInline t n b :: post := by
  induction ts with
  | nil => simp at h
  | cons t rest ih =>
    by_cases ht : t.type = .inline
    · exact ⟨[], t, rest, by simp, ht, by simp, by simp [clozeFirstInline, ht]⟩
    · have hr : ∃ u ∈ rest, u.type = .inline := by
        rcases h with ⟨u, hu, hut⟩
        rcases List.mem_cons.mp hu with rfl | hu
        · exact absurd hut ht
        · exact ⟨u, hu, hut⟩
      obtain ⟨pre, u, post, heq, hut, hpre, hres⟩ := ih hr
      refine ⟨t :: pre, u, post, by simp [heq], hut, ?_, ?_⟩
      · intro v hv
        rcases List.mem_cons.mp hv with rfl | hv
        · exact ht
        · exact hpre v hv
      · simp [clozeFirstInline, ht, hres]

theorem clozeFirstInline_nums (ts : List Tok) (h0 : clozeNums ts = [])
    (h1 : ∃ t ∈ ts, t.type = .inline) :
    clozeNums (clozeFirstInline ts 1 false) = [1] := by
  obtain ⟨pre, t, post, heq, hti, hpre, hres⟩ := clozeFirstInline_decomp 1 false ts h1
  rw [heq, clozeNums_append, clozeNums_cons] at h0
  have hpre0 : clozeNums pre = [] := by
    cases hp : clozeNums pre with
    | nil => rfl
    | cons a l => rw [hp] at h0; simp at h0
  rw [hpre0] at h0
  simp only [List.nil_append] at h0
  have htok : clozeNumsOfTok t = [] := by
    cases hp : clozeNumsOfTok t with
    | nil => rfl
    | cons a l => rw [hp] at h0; simp at h0
  have hpost : clozeNums post = [] := by
    rw [htok] at h0; simpa using h0
  rw [hres, clozeNums_append, clozeNums_cons, hpre0,
    clozeNumsOfTok_addCloze t 1 false hti, htok, hpost]
  rfl

theorem clozeLastInline_nums (ts : List Tok) (h0 : clozeNums ts = [])
    (h1 : ∃ t ∈ ts, t.type = .inline) :
    clozeNums ((clozeFirstInline ts.reverse 1 false).reverse) = [1] := by
  have h0' : clozeNums ts.reverse = [] := clozeNums_reverse_nil ts h0
  have h1' : ∃ t ∈ ts.reverse, t.type = .inline := by
    rcases h1 with ⟨t, ht, htt⟩
    exact ⟨t, List.mem_reverse.mpr ht, htt⟩
  obtain ⟨pre, t, post, heq, hti, hpre, hres⟩ :=
    clozeFirstInline_decomp 1 false ts.reverse h1'
  rw [heq, clozeNums_append, clozeNums_cons] at h0'
  have hpre0 : clozeNums pre = [] := by
    cases hp : clozeNums pre with
    | nil => rfl
    | cons a l => rw [hp] at h0'; simp at h0'
  rw [hpre0] at h0'
  simp only [List.nil_append] at h0'
  have htok : clozeNumsOfTok t = [] := by
    cases hp : clozeNumsOfTok t with
    | nil => rfl
    | cons a l => rw [hp] at h0'; simp at h0'
  have hpost : clozeNums post = [] := by
    rw [htok] at h0'; simpa using h0'
  rw [hres]
  rw [List.reverse_append, List.reverse_cons]
  rw [clozeNums_append, clozeNums_append, clozeNums_cons,
    clozeNums_reverse_nil post hpost, clozeNums_reverse_nil pre hpre0,
    clozeNumsOfTok_addCloze t 1 false hti, htok]
  rfl

/-! ## Helper lemmas: the incremental numbering loop over flattened forests -/

theorem clozeBack_cons_liOpen (inc : Bool) (d : Int) (idx : Nat) (t : Tok)
    (r : List Tok) (h : t.type = .list_item_open) :
    clozeBack inc d idx (t :: r) = t :: clozeBack inc (d + 1) idx r := by
  simp [clozeBack, h]

theorem clozeBack_cons_liClose (inc : Bool) (d : Int) (idx : Nat) (t : Tok)
    (r : List Tok) (h : t.type = .list_item_close) :
    clozeBack inc d idx (t :: r) =
      t :: clozeBack inc (d - 1) (if d - 1 = 0 ∧ inc then idx + 1 else idx) r := by
  simp [clozeBack, h]

theorem clozeBack_cons_inline (inc : Bool) (d : Int) (idx : Nat) (t : Tok)
    (r : List Tok) (h : t.type = .inline) (hd : 0 < d) :
    clozeBack inc d idx (t :: r) =
      addClozeToInline t (if inc then idx else 1) true :: clozeBack inc d idx r := by
  simp [clozeBack, h, hd]

theorem clozeBack_cons_other (inc : Bool) (d : Int) (idx : Nat) (t : Tok)
    (r : List Tok) (h1 : ¬ t.type = .list_item_open)
    (h2 : ¬ t.type = .list_item_close) (h3 : ¬ (0 < d ∧ t.type = .inline)) :
    clozeBack inc d idx (t :: r) = t :: clozeBack inc d idx r := by
  simp [clozeBack, h1, h2, h3]

mutual

theorem numsFlatB (b : BTok) (inc : Bool) (d : Int) (idx : Nat)
    (rest : List Tok) (hd : 1 ≤ d) (hb : leafOK b = true) :
    clozeNums (clozeBack inc d idx (flattenB b ++ rest)) =
      List.replicate (inlineCountB b) (if inc then idx else 1) ++
        clozeNums (clozeBack inc d idx rest) := by
  cases b with
  | leaf t =>
    simp only [leafOK, Bool.and_eq_true, Bool.not_eq_true', beq_eq_false_iff_ne,
      ne_eq, List.isEmpty_iff] at hb
    obtain ⟨⟨hno, hnc⟩, hnum⟩ := hb
    simp only [flattenB, List.cons_append, List.nil_append]
    by_cases hti : t.type = .inline
    · rw [clozeBack_cons_inline inc d idx t _ hti (by omega), clozeNums_cons,
        clozeNumsOfTok_addCloze t _ true hti, hnum, inlineCountB, if_pos hti]
      rfl
    · rw [clozeBack_cons_other inc d idx t _ hno hnc (by simp [hti]),
        clozeNums_cons, hnum, inlineCountB, if_neg hti]
      rfl
  | item ts =>
    have hts : leavesOK ts = true := by simpa [leafOK] using hb
    simp only [flattenB, List.cons_append, List.append_assoc, List.singleton_append,
      List.nil_append]
    rw [clozeBack_cons_liOpen inc d idx liOpenTok _ rfl, clozeNums_cons]
    rw [numsFlatForest ts inc (d + 1) idx (liCloseTok :: rest) (by omega) hts]
    rw [clozeBack_cons_liClose inc (d + 1) idx liCloseTok rest rfl]
    have hd1 : ¬ (d + 1 - 1 = 0 ∧ inc = true) := by
      intro hcon
      omega
    rw [if_neg hd1, clozeNums_cons]
    have hdd : d + 1 - 1 = d := by omega
    rw [hdd]
    rw [show clozeNumsOfTok liOpenTok = [] from rfl,
      show clozeNumsOfTok liCloseTok = [] from rfl]
    rw [show inlineCountB (BTok.item ts) = inlineCountForest ts from by
      simp only [inlineCountB]]
    simp only [List.nil_append]

theorem numsFlatForest (ts : List BTok) (inc : Bool) (d : Int) (idx : Nat)
    (rest : List Tok) (hd : 1 ≤ d) (hts : leavesOK ts = true) :
    clozeNums (clozeBack inc d idx (flattenForest ts ++ rest)) =
      List.replicate (inlineCountForest ts) (if inc then idx else 1) ++
        clozeNums (clozeBack inc d idx rest) := by
  cases ts with
  | nil =>
    rw [show flattenForest [] = [] from by simp only [flattenForest]]
    rw [show inlineCountForest [] = 0 from by simp only [inlineCountForest]]
    simp only [List.nil_append, List.replicate_zero]
  | cons b bs =>
    have hb : leafOK b = true := by
      simp only [leavesOK, Bool.and_eq_true] at hts
      exact hts.1
    have hbs : leavesOK bs = true := by
      simp only [leavesOK, Bool.and_eq_true] at hts
      exact hts.2
    rw [show flattenForest (b :: bs) = flattenB b ++ flattenForest bs from by
      simp only [flattenForest]]
    rw [List.append_assoc]
    rw [numsFlatB b inc d idx (flattenForest bs ++ rest) hd hb]
    rw [numsFlatForest bs inc d idx rest hd hbs]
    rw [show inlineCountForest (b :: bs) = inlineCountB b + inlineCountForest bs from by
      simp only [inlineCountForest]]
    simp only [List.replicate_add, List.append_assoc]

end

theorem numsTopTrue (ts : List BTok) : ∀ (idx : Nat) (rest : List Tok),
    leavesOK ts = true →
    clozeNums (clozeBack true 0 idx (flattenForest ts ++ rest)) =
      numsTop ts idx ++ clozeNums (clozeBack true 0 (idx + itemCount ts) rest) := by
  induction ts with
  | nil =>
    intro idx rest hts
    rw [show flattenForest [] = [] from by simp only [flattenForest]]
    simp [numsTop, itemCount]
  | cons b bs ih =>
    intro idx rest hts
    have hb : leafOK b = true := by
      simp only [leavesOK, Bool.and_eq_true] at hts
      exact hts.1
    have hbs : leavesOK bs = true := by
      simp only [leavesOK, Bool.and_eq_true] at hts
      exact hts.2
    cases b with
    | leaf t =>
      simp only [leafOK, Bool.and_eq_true, Bool.not_eq_true', beq_eq_false_iff_ne,
        ne_eq, List.isEmpty_iff] at hb
      obtain ⟨⟨hno, hnc⟩, hnum⟩ := hb
      rw [show flattenForest (BTok.leaf t :: bs) = flattenB (BTok.leaf t) ++ flattenForest bs
        from by simp only [flattenForest]]
      rw [show flattenB (BTok.leaf t) = [t] from by simp only [flattenB]]
      rw [List.append_assoc, List.singleton_append]
      rw [clozeBack_cons_other true 0 idx t _ hno hnc (by simp), clozeNums_cons, hnum]
      rw [ih idx rest hbs]
      simp only [numsTop, itemCount, List.nil_append]
    | item ts' =>
      have hts' : leavesOK ts' = true := by simpa only [leafOK] using hb
      rw [show flattenForest (BTok.item ts' :: bs) =
          flattenB (BTok.item ts') ++ flattenForest bs from by simp only [flattenForest]]
      rw [show flattenB (BTok.item ts') = liOpenTok :: flattenForest ts' ++ [liCloseTok]
        from by simp only [flattenB]]
      simp only [List.cons_append, List.append_assoc, List.singleton_append,
        List.nil_append]
      rw [clozeBack_cons_liOpen true 0 idx liOpenTok _ rfl, clozeNums_cons]
      rw [numsFlatForest ts' true (0 + 1) idx (liCloseTok :: (flattenForest bs ++ rest))
        (by omega) hts']
      rw [clozeBack_cons_liClose true (0 + 1) idx liCloseTok _ rfl]
      have hcond : ((0 : Int) + 1 - 1 = 0 ∧ true = true) := ⟨by omega, rfl⟩
      rw [if_pos hcond, clozeNums_cons]
      rw [show (0 : Int) + 1 - 1 = 0 from by omega]
      rw [ih (idx + 1) rest hbs]
      rw [show clozeNumsOfTok liOpenTok = [] from rfl,
        show clozeNumsOfTok liCloseTok = [] from rfl]
      simp only [numsTop, itemCount, List.nil_append, if_pos, List.append_assoc]
      have harith : idx + (itemCount bs + 1) = idx + 1 + itemCount bs := by omega
      rw [harith]

theorem numsTopFalse (ts : List BTok) : ∀ (idx : Nat) (rest : List Tok),
    leavesOK ts = true →
    clozeNums (clozeBack false 0 idx (flattenForest ts ++ rest)) =
      List.replicate (inlineCountInItems ts) 1 ++
        clozeNums (clozeBack false 0 idx rest) := by
  induction ts with
  | nil =>
    intro idx rest hts
    rw [show flattenForest [] = [] from by simp only [flattenForest]]
    simp [inlineCountInItems]
  | cons b bs ih =>
    intro idx rest hts
    have hb : leafOK b = true := by
      simp only [leavesOK, Bool.and_eq_true] at hts
      exact hts.1
    have hbs : leavesOK bs = true := by
      simp only [leavesOK, Bool.and_eq_true] at hts
      exact hts.2
    cases b with
    | leaf t =>
      simp only [leafOK, Bool.and_eq_true, Bool.not_eq_true', beq_eq_false_iff_ne,
        ne_eq, List.isEmpty_iff] at hb
      obtain ⟨⟨hno, hnc⟩, hnum⟩ := hb
      rw [show flattenForest (BTok.leaf t :: bs) = flattenB (BTok.leaf t) ++ flattenForest bs
        from by simp only [flattenForest]]
      rw [show flattenB (BTok.leaf t) = [t] from by simp only [flattenB]]
      rw [List.append_assoc, List.singleton_append]
      rw [clozeBack_cons_other false 0 idx t _ hno hnc (by simp), clozeNums_cons, hnum]
      rw [ih idx rest hbs]
      simp only [inlineCountInItems, List.nil_append]
    | item ts' =>
      have hts' : leavesOK ts' = true := by simpa only [leafOK] using hb
      rw [show flattenForest (BTok.item ts' :: bs) =
          flattenB (BTok.item ts') ++ flattenForest bs from by simp only [flattenForest]]
      rw [show flattenB (BTok.item ts') = liOpenTok :: flattenForest ts' ++ [liCloseTok]
        from by simp only [flattenB]]
      simp only [List.cons_append, List.append_assoc, List.singleton_append,
        List.nil_append]
      rw [clozeBack_cons_liOpen false 0 idx liOpenTok _ rfl, clozeNums_cons]
      rw [numsFlatForest ts' false (0 + 1) idx (liCloseTok :: (flattenForest bs ++ rest))
        (by omega) hts']
      rw [clozeBack_cons_liClose false (0 + 1) idx liCloseTok _ rfl]
      have hcond : ¬ ((0 : Int) + 1 - 1 = 0 ∧ false = true) := by simp
      rw [if_neg hcond, clozeNums_cons]
      rw [show (0 : Int) + 1 - 1 = 0 from by omega]
      rw [ih idx rest hbs]
      rw [show clozeNumsOfTok liOpenTok = [] from rfl,
        show clozeNumsOfTok liCloseTok = [] from rfl]
      rw [show inlineCountInItems (BTok.item ts' :: bs) =
          inlineCountForest ts' + inlineCountInItems bs from by
        simp only [inlineCountInItems]]
      simp only [List.nil_append, List.replicate_add, List.append_assoc,
        Bool.false_eq_true, if_false]

theorem clozeBack_nonpos_nums (rest : List Tok) : ∀ (inc : Bool) (d : Int) (idx : Nat),
    d ≤ 0 →
    (∀ t ∈ rest, ¬ t.type = .list_item_open ∧ clozeNumsOfTok t = []) →
    clozeNums (clozeBack inc d idx rest) = [] := by
  induction rest with
  | nil => intro inc d idx hd h; rfl
  | cons t r ih =>
    intro inc d idx hd h
    obtain ⟨hno, hnum⟩ := h t (by simp)
    have hr : ∀ u ∈ r, ¬ u.type = .list_item_open ∧ clozeNumsOfTok u = [] :=
      fun u hu => h u (by simp [hu])
    by_cases hc : t.type = .list_item_close
    · rw [clozeBack_cons_liClose inc d idx t r hc, clozeNums_cons, hnum,
        ih inc (d - 1) _ (by omega) hr]
      rfl
    · rw [clozeBack_cons_other inc d idx t r hno hc (by
        intro hcon
        omega), clozeNums_cons, hnum, ih inc d idx hd hr]
      rfl

mutual

theorem flattenB_numsNil (b : BTok) (h : leafOK b = true) :
    clozeNums (flattenB b) = [] := by
  cases b with
  | leaf t =>
    simp only [leafOK, Bool.and_eq_true, List.isEmpty_iff] at h
    rw [show flattenB (BTok.leaf t) = [t] from by simp only [flattenB]]
    rw [clozeNums_cons, h.2]
    rfl
  | item ts =>
    have hts : leavesOK ts = true := by simpa only [leafOK] using h
    rw [show flattenB (BTok.item ts) = liOpenTok :: flattenForest ts ++ [liCloseTok]
      from by simp only [flattenB]]
    rw [List.cons_append, clozeNums_cons, clozeNums_append,
      flattenForest_numsNil ts hts]
    rfl

theorem flattenForest_numsNil (ts : List BTok) (h : leavesOK ts = true) :
    clozeNums (flattenForest ts) = [] := by
  cases ts with
  | nil =>
    rw [show flattenForest [] = [] from by simp only [flattenForest]]
    rfl
  | cons b bs =>
    simp only [leavesOK, Bool.and_eq_true] at h
    rw [show flattenForest (b :: bs) = flattenB b ++ flattenForest bs from by
      simp only [flattenForest]]
    rw [clozeNums_append, flattenB_numsNil b h.1, flattenForest_numsNil bs h.2]
    rfl

end

theorem mem_numsTop (ts : List BTok) : ∀ (k m : Nat), itemsHaveInline ts = true →
    (m ∈ numsTop ts k ↔ k ≤ m ∧ m < k + itemCount ts) := by
  induction ts with
  | nil =>
    intro k m h
    simp [numsTop, itemCount]
  | cons b bs ih =>
    intro k m h
    cases b with
    | leaf t =>
      simp only [numsTop, itemCount]
      rw [ih k m (by simpa [itemsHaveInline] using h)]
    | item ts' =>
      simp only [itemsHaveInline, Bool.and_eq_true, decide_eq_true_eq] at h
      simp only [numsTop, itemCount, List.mem_append, List.mem_replicate]
      rw [ih (k + 1) m h.2]
      constructor
      · rintro (⟨hne, rfl⟩ | ⟨h1, h2⟩) <;> omega
      · intro ⟨h1, h2⟩
        by_cases hm : m = k
        · exact Or.inl ⟨by omega, hm⟩
        · exact Or.inr ⟨by omega, by omega⟩

theorem gaplessFrom1_iff (l : List Nat) :
    gaplessFrom1 l = true ↔ ∀ n ∈ l, 1 ≤ n ∧ ∀ m, 1 ≤ m → m ≤ n → m ∈ l := by
  simp only [gaplessFrom1, List.all_eq_true, Bool.and_eq_true, decide_eq_true_eq,
    List.mem_range'_1, List.contains_iff_exists_mem_beq]
  constructor
  · intro h n hn
    obtain ⟨h1, h2⟩ := h n hn
    refine ⟨h1, fun m hm1 hm2 => ?_⟩
    obtain ⟨a, ha, hab⟩ := h2 m ⟨hm1, by omega⟩
    rwa [show m = a from by simpa using hab]
  · intro h n hn
    obtain ⟨h1, h2⟩ := h n hn
    exact ⟨h1, fun m hm => ⟨m, h2 m hm.1 (by omega), by simp⟩⟩

theorem segNums_cons_txt (a : String) (l : List RSeg) :
    segNums (.txt a :: l) = segNums l := by
  simp [segNums]

theorem segNums_cons_placeholder (a : String) (l : List RSeg) :
    segNums (.placeholder a :: l) = segNums l := by
  simp [segNums]

theorem segNums_cons_numbered (n : Nat) (a : String) (l : List RSeg) :
    segNums (.numbered n a :: l) = n :: segNums l := by
  simp [segNums]

theorem segNums_renumber (segs : List RSeg) : ∀ (m : Nat),
    (∀ s ∈ segs, isRawSeg s = true) →
    segNums (renumberSegs m segs) = List.range' m (countPlaceholders segs) := by
  induction segs with
  | nil => intro m h; rfl
  | cons s rest ih =>
    intro m h
    have hrest : ∀ u ∈ rest, isRawSeg u = true := fun u hu => h u (by simp [hu])
    cases s with
    | txt a =>
      rw [show renumberSegs m (RSeg.txt a :: rest) = RSeg.txt a :: renumberSegs m rest
        from rfl]
      rw [segNums_cons_txt, ih m hrest]
      rw [show countPlaceholders (RSeg.txt a :: rest) = countPlaceholders rest from by
        simp [countPlaceholders]]
    | placeholder a =>
      rw [show renumberSegs m (RSeg.placeholder a :: rest) =
        RSeg.numbered m a :: renumberSegs (m + 1) rest from rfl]
      rw [segNums_cons_numbered, ih (m + 1) hrest]
      rw [show countPlaceholders (RSeg.placeholder a :: rest) =
        countPlaceholders rest + 1 from by simp [countPlaceholders]]
      rw [List.range'_succ]
    | numbered n a =>
      have hcon := h (RSeg.numbered n a) (List.mem_cons_self _ _)
      simp [isRawSeg] at hcon

theorem backOfThree_eq_flatten (t1 t2 t3 : Tok) :
    backOfThree t1 t2 t3 = flattenForest (forestOfThree t1 t2 t3) ++ [liCloseTok] := by
  simp [backOfThree, forestOfThree, flattenForest, flattenB]

theorem leavesOK_forestOfThree (t1 t2 t3 : Tok)
    (h1 : t1.type = .inline) (h2 : t2.type = .inline) (h3 : t3.type = .inline)
    (m1 : clozeNumsOfTok t1 = []) (m2 : clozeNumsOfTok t2 = [])
    (m3 : clozeNumsOfTok t3 = []) :
    leavesOK (forestOfThree t1 t2 t3) = true := by
  simp only [forestOfThree, leavesOK, leafOK, Bool.and_eq_true, Bool.not_eq_true',
    beq_eq_false_iff_ne, ne_eq, List.isEmpty_iff, h1, h2, h3, m1, m2, m3]
  refine ⟨⟨⟨by decide, by decide⟩, by decide⟩, ?_⟩
  simp [pOpenTok, pCloseTok, blOpenTok, blCloseTok, clozeNumsOfTok, h1, h2, h3,
    m1, m2, m3]

theorem tailClose_nums (inc : Bool) (idx : Nat) :
    clozeNums (clozeBack inc 0 idx [liCloseTok]) = [] := by
  apply clozeBack_nonpos_nums [liCloseTok] inc 0 idx (by omega)
  intro t ht
  simp only [List.mem_singleton] at ht
  subst ht
  exact ⟨by decide, rfl⟩

/-- C1: for a list card whose back content consists of three top-level list
items each carrying one inline token, the synthesizer with the
`incremental` tag assigns cloze numbers 1, 2, 3 in document order, each
used exactly once; without the tag every clozed inline token receives
cloze number 1. -/
theorem incremental_numbering_three_items (t1 t2 t3 : Tok) (front : List Tok)
    (h1 : t1.type = .inline) (h2 : t2.type = .inline) (h3 : t3.type = .inline)
    (m1 : clozeNumsOfTok t1 = []) (m2 : clozeNumsOfTok t2 = [])
    (m3 : clozeNumsOfTok t3 = []) (hf : clozeNums front = []) :
    clozeNums (createClozeCardTokens front (backOfThree t1 t2 t3) .forward true) =
      [1, 2, 3] ∧
    clozeNums (createClozeCardTokens front (backOfThree t1 t2 t3) .forward false) =
      [1, 1, 1] := by
  have hOK := leavesOK_forestOfThree t1 t2 t3 h1 h2 h3 m1 m2 m3
  have hnotinline : isInlineCardBack (backOfThree t1 t2 t3) = false := by
    simp [backOfThree, isInlineCardBack]
  constructor
  · rw [show createClozeCardTokens front (backOfThree t1 t2 t3) .forward true =
        front ++ clozeBack true 0 1 (backOfThree t1 t2 t3) from by
      simp [createClozeCardTokens, hnotinline]]
    rw [clozeNums_append, hf, backOfThree_eq_flatten,
      numsTopTrue _ 1 [liCloseTok] hOK, tailClose_nums]
    simp only [forestOfThree, numsTop, List.append_nil, List.nil_append]
    rw [show inlineCountForest [BTok.leaf pOpenTok, BTok.leaf t1, BTok.leaf pCloseTok] = 1
      from by simp [inlineCountForest, inlineCountB, h1, pOpenTok, pCloseTok]]
    rw [show inlineCountForest [BTok.leaf pOpenTok, BTok.leaf t2, BTok.leaf pCloseTok] = 1
      from by simp [inlineCountForest, inlineCountB, h2, pOpenTok, pCloseTok]]
    rw [show inlineCountForest [BTok.leaf pOpenTok, BTok.leaf t3, BTok.leaf pCloseTok] = 1
      from by simp [inlineCountForest, inlineCountB, h3, pOpenTok, pCloseTok]]
    rfl
  · rw [show createClozeCardTokens front (backOfThree t1 t2 t3) .forward false =
        front ++ clozeBack false 0 1 (backOfThree t1 t2 t3) from by
      simp [createClozeCardTokens, hnotinline]]
    rw [clozeNums_append, hf, backOfThree_eq_flatten,
      numsTopFalse _ 1 [liCloseTok] hOK, tailClose_nums]
    simp only [forestOfThree, List.append_nil, List.nil_append]
    rw [show inlineCountInItems
        [BTok.leaf pCloseTok, BTok.leaf blOpenTok,
         BTok.item [BTok.leaf pOpenTok, BTok.leaf t1, BTok.leaf pCloseTok],
         BTok.item [BTok.leaf pOpenTok, BTok.leaf t2, BTok.leaf pCloseTok],
         BTok.item [BTok.leaf pOpenTok, BTok.leaf t3, BTok.leaf pCloseTok],
         BTok.leaf blCloseTok] = 3 from by
      simp [inlineCountInItems, inlineCountForest, inlineCountB, h1, h2, h3,
        pOpenTok, pCloseTok]]
    rfl

/-- C1 witness: the theorem evaluated at three concrete inline tokens. -/
theorem incremental_numbering_three_items_witness :
    clozeNums (createClozeCardTokens []
      (backOfThree (mkInlineTok "x") (mkInlineTok "y") (mkInlineTok "z"))
      .forward true) = [1, 2, 3] ∧
    clozeNums (createClozeCardTokens []
      (backOfThree (mkInlineTok "x") (mkInlineTok "y") (mkInlineTok "z"))
      .forward false) = [1, 1, 1] :=
  incremental_numbering_three_items (mkInlineTok "x") (mkInlineTok "y")
    (mkInlineTok "z") [] rfl rfl rfl (by decide) (by decide) (by decide) rfl

/-- C4: for a Backward-direction card the synthesizer injects the cloze
markers into the front token set and places the clozed front ahead of the
untouched back tokens in the final sequence; for Forward and Bidirectional
the front is emitted untouched first (the back token set is the one
clozed, receiving number 1 when the back is a single inline token), and
Bidirectional is treated identically to Forward. -/
theorem directional_cloze_sides (front back : List Tok) (inc : Bool)
    (hf : clozeNums front = []) (hb : clozeNums back = [])
    (hfi : ∃ t ∈ front, t.type = .inline) :
    (∃ F, createClozeCardTokens front back .backward inc = F ++ back ∧
      clozeNums F = [1]) ∧
    (∃ B, createClozeCardTokens front back .forward inc = front ++ B) ∧
    (∀ t, back = [t] → t.type = .inline →
      ∃ B, createClozeCardTokens front back .forward inc = front ++ B ∧
        clozeNums B = [1]) ∧
    createClozeCardTokens front back .bidirectional inc =
      createClozeCardTokens front back .forward inc := by
  refine ⟨?_, ?_, ?_, ?_⟩
  · by_cases hib : isInlineCardBack back = true
    · exact ⟨(clozeFirstInline front.reverse 1 false).reverse,
        by simp [createClozeCardTokens, hib],
        clozeLastInline_nums front hf hfi⟩
    · exact ⟨clozeFirstInline front 1 false,
        by simp [createClozeCardTokens, hib],
        clozeFirstInline_nums front hf hfi⟩
  · by_cases hib : isInlineCardBack back = true
    · exact ⟨clozeFirstInline back 1 false, by simp [createClozeCardTokens, hib]⟩
    · exact ⟨clozeBack inc 0 1 back, by simp [createClozeCardTokens, hib]⟩
  · intro t hback hti
    subst hback
    have hib : isInlineCardBack [t] = true := by simp [isInlineCardBack, hti]
    refine ⟨clozeFirstInline [t] 1 false, by simp [createClozeCardTokens, hib], ?_⟩
    have htok : clozeNumsOfTok t = [] := by
      rw [clozeNums_cons] at hb
      cases hp : clozeNumsOfTok t with
      | nil => rfl
      | cons a l => rw [hp] at hb; simp at hb
    rw [show clozeFirstInline [t] 1 false = [addClozeToInline t 1 false] from by
      simp [clozeFirstInline, hti]]
    rw [clozeNums_cons, clozeNumsOfTok_addCloze t 1 false hti, htok]
    rfl
  · simp [createClozeCardTokens]

/-- C4 witness: the theorem evaluated at a concrete one-inline front and
one-inline back. -/
theorem directional_cloze_sides_witness :
    (∃ F, createClozeCardTokens [mkInlineTok "f"] [mkInlineTok "b"] .backward false =
        F ++ [mkInlineTok "b"] ∧ clozeNums F = [1]) ∧
    (∃ B, createClozeCardTokens [mkInlineTok "f"] [mkInlineTok "b"] .forward false =
        [mkInlineTok "f"] ++ B) ∧
    (∀ t, [mkInlineTok "b"] = [t] → t.type = .inline →
      ∃ B, createClozeCardTokens [mkInlineTok "f"] [mkInlineTok "b"] .forward false =
          [mkInlineTok "f"] ++ B ∧ clozeNums B = [1]) ∧
    createClozeCardTokens [mkInlineTok "f"] [mkInlineTok "b"] .bidirectional false =
      createClozeCardTokens [mkInlineTok "f"] [mkInlineTok "b"] .forward false :=
  directional_cloze_sides [mkInlineTok "f"] [mkInlineTok "b"] false
    (by decide) (by decide) ⟨mkInlineTok "f", by decide, rfl⟩

/-- C5 counterexample: an incremental list card whose second top-level back
item is empty (markdown `-`, a bare list-item-open/close pair with no
inline token) receives cloze numbers 1 and 3 — the per-item counter is
incremented at every top-level item close, including inline-free items, so
number 2 is skipped and the claimed "increase without gaps" fails. -/
theorem cloze_numbering_gap_counterexample :
    clozeNums (createClozeCardTokens [] backWithEmptyItem .forward true) = [1, 3] ∧
    gaplessFrom1 (clozeNums (createClozeCardTokens [] backWithEmptyItem
      .forward true)) = false := by
  constructor <;> decide

/-- C5 (amended): cloze numbers within one synthesized card start at 1 and
increase without gaps, for renumbered double-tilde cloze regions
unconditionally, and for incremental list/file cards provided every
top-level back item contains at least one inline token (an inline-free
top-level item still consumes a counter value, which is what the
counterexample exploits). -/
theorem cloze_numbering_gapless_amended :
    (∀ segs : List RSeg, (∀ s ∈ segs, isRawSeg s = true) →
      gaplessFrom1 (segNums (renumberSegs 1 segs)) = true) ∧
    (∀ (ts : List BTok) (front rest : List Tok),
      leavesOK ts = true → itemsHaveInline ts = true →
      clozeNums front = [] →
      (∀ t ∈ rest, ¬ t.type = .list_item_open ∧ clozeNumsOfTok t = []) →
      gaplessFrom1 (clozeNums (createClozeCardTokens front
        (flattenForest ts ++ rest) .forward true)) = true) := by
  constructor
  · intro segs hraw
    rw [segNums_renumber segs 1 hraw, gaplessFrom1_iff]
    intro n hn
    rw [List.mem_range'_1] at hn
    refine ⟨hn.1, fun m hm1 hm2 => ?_⟩
    rw [List.mem_range'_1]
    omega
  · intro ts front rest hOK hinl hfront hrest
    have hbacknil : clozeNums (flattenForest ts ++ rest) = [] := by
      rw [clozeNums_append, flattenForest_numsNil ts hOK]
      have : clozeNums rest = [] := by
        rw [clozeNums_eq_nil_iff]
        exact fun t ht => (hrest t ht).2
      rw [this]
      rfl
    by_cases hib : isInlineCardBack (flattenForest ts ++ rest) = true
    · obtain ⟨t, hbt, hti⟩ : ∃ t, flattenForest ts ++ rest = [t] ∧ t.type = .inline := by
        cases hb : flattenForest ts ++ rest with
        | nil => rw [hb] at hib; simp [isInlineCardBack] at hib
        | cons t l =>
          cases l with
          | nil =>
            rw [hb] at hib
            simp only [isInlineCardBack, decide_eq_true_eq] at hib
            exact ⟨t, rfl, hib⟩
          | cons u l2 => rw [hb] at hib; simp [isInlineCardBack] at hib
      have htok : clozeNumsOfTok t = [] := by
        rw [hbt, clozeNums_cons] at hbacknil
        cases hp : clozeNumsOfTok t with
        | nil => rfl
        | cons a l => rw [hp] at hbacknil; simp at hbacknil
      rw [show createClozeCardTokens front (flattenForest ts ++ rest) .forward true =
          front ++ clozeFirstInline (flattenForest ts ++ rest) 1 false from by
        simp [createClozeCardTokens, hib]]
      rw [hbt, show clozeFirstInline [t] 1 false = [addClozeToInline t 1 false] from by
        simp [clozeFirstInline, hti]]
      rw [clozeNums_append, hfront, clozeNums_cons,
        clozeNumsOfTok_addCloze t 1 false hti, htok]
      decide
    · rw [show createClozeCardTokens front (flattenForest ts ++ rest) .forward true =
          front ++ clozeBack true 0 1 (flattenForest ts ++ rest) from by
        simp [createClozeCardTokens, hib]]
      rw [clozeNums_append, hfront, numsTopTrue ts 1 rest hOK,
        clozeBack_nonpos_nums rest true 0 _ (by omega) hrest]
      rw [gaplessFrom1_iff]
      intro n hn
      simp only [List.append_nil, List.nil_append] at hn ⊢
      rw [mem_numsTop ts 1 n hinl] at hn
      refine ⟨hn.1, fun m hm1 hm2 => ?_⟩
      rw [mem_numsTop ts 1 m hinl]
      omega

/-- C5 witness: the amended theorem evaluated on a concrete segment list
and a concrete one-item forest. -/
theorem cloze_numbering_gapless_amended_witness :
    gaplessFrom1 (segNums (renumberSegs 1
      [RSeg.placeholder "a", RSeg.txt "b", RSeg.placeholder "c"])) = true ∧
    gaplessFrom1 (clozeNums (createClozeCardTokens []
      (flattenForest [BTok.item [BTok.leaf (mkInlineTok "x")]] ++ [liCloseTok])
      .forward true)) = true :=
  ⟨cloze_numbering_gapless_amended.1
      [RSeg.placeholder "a", RSeg.txt "b", RSeg.placeholder "c"]
      (by
        intro s hs
        simp only [List.mem_cons, List.not_mem_nil, or_false] at hs
        rcases hs with rfl | rfl | rfl <;> rfl),
   cloze_numbering_gapless_amended.2
      [BTok.item [BTok.leaf (mkInlineTok "x")]] [] [liCloseTok]
      (by simp only [leavesOK, leafOK]; decide)
      (by simp only [itemsHaveInline, inlineCountForest, inlineCountB]; decide)
      rfl
      (by
        intro t ht
        simp only [List.mem_singleton] at ht
        subst ht
        exact ⟨by decide, rfl⟩)⟩

/-- C2: the extraction engine's direction detection
(`_detect_symbol_direction`, src/extract.py) tests the Bidirectional glyph
first, so any carrier text containing the Bidirectional glyph classifies
as Bidirectional even though it also contains the Forward and Backward
glyphs as substrings; the older duplicate detection inlined in
src/main.py's `parse_regions_of_interest` tests Forward first and
misclassifies the same text as Forward — contradicting both the spec and
main.py's own documentation of the glyphs. -/
theorem direction_detection_order (s : String)
    (h : strContains s (inlineSymbol .bidirectional) = true) :
    detectSymbolDirection s = some SymbolDirection.bidirectional ∧
    detectSymbolDirection "a <==> b" = some SymbolDirection.bidirectional ∧
    mainDetectDirection "a <==> b" = some SymbolDirection.forward := by
  refine ⟨?_, by decide, by decide⟩
  simp [detectSymbolDirection, h]

/-- C2 witness: the theorem applied at a concrete carrier text. -/
theorem direction_detection_order_witness :
    detectSymbolDirection "x <==> y" = some SymbolDirection.bidirectional ∧
    detectSymbolDirection "a <==> b" = some SymbolDirection.bidirectional ∧
    mainDetectDirection "a <==> b" = some SymbolDirection.forward :=
  direction_detection_order "x <==> y" (by decide)

/-- C10: on a document whose markdown parse yields an empty token list
(the empty file, for instance), `read_file`'s front-matter probe
`tokens[0]` raises an uncaught IndexError, so `extract_cards` fails
instead of returning an empty list of cards. -/
theorem empty_parse_index_error (env : Env) (text filepathContext : String) :
    extractCardsFromParse env text [] filepathContext = .error .indexError := rfl

/-! ## Helper lemmas: the region scanner -/

theorem findFromGo_found (tokens : List Tok) (p : Tok → Bool) :
    ∀ (fuel j : Nat),
    (∃ l t, j ≤ l ∧ l < j + fuel ∧ tokens[l]? = some t ∧ p t = true) →
    ∃ l' t', findFromGo tokens p fuel j = some l' ∧ tokens[l']? = some t' ∧
      p t' = true := by
  intro fuel
  induction fuel with
  | zero =>
    intro j h
    obtain ⟨l, t, h1, h2, _, _⟩ := h
    omega
  | succ fuel ih =>
    intro j h
    obtain ⟨l, t, h1, h2, h3, h4⟩ := h
    cases hj : tokens[j]? with
    | none =>
      have hlen : tokens.length ≤ j := by
        by_contra hc
        push_neg at hc
        rw [List.getElem?_eq_getElem hc] at hj
        exact absurd hj (by simp)
      have hl : l < tokens.length := by
        by_contra hc
        push_neg at hc
        rw [List.getElem?_eq_none hc] at h3
        exact absurd h3 (by simp)
      omega
    | some t0 =>
      by_cases hp : p t0 = true
      · exact ⟨j, t0, by simp [findFromGo, hj, hp], hj, hp⟩
      · have hne : l ≠ j := by
          intro heq
          subst heq
          rw [hj] at h3
          injection h3 with h3
          subst h3
          exact hp h4
        have hres : findFromGo tokens p (fuel + 1) j = findFromGo tokens p fuel (j + 1) := by
          simp [findFromGo, hj, hp]
        rw [hres]
        exact ih (j + 1) ⟨l, t, by omega, by omega, h3, h4⟩

theorem findFrom_found (tokens : List Tok) (p : Tok → Bool) (j : Nat)
    (h : ∃ l t, j ≤ l ∧ tokens[l]? = some t ∧ p t = true) :
    ∃ l' t', findFrom tokens p j = some l' ∧ tokens[l']? = some t' ∧ p t' = true := by
  obtain ⟨l, t, h1, h3, h4⟩ := h
  have hl : l < tokens.length := by
    by_contra hc
    push_neg at hc
    rw [List.getElem?_eq_none hc] at h3
    exact absurd h3 (by simp)
  exact findFromGo_found tokens p (tokens.length - j) j ⟨l, t, h1, by omega, h3, h4⟩

theorem findCloseIndex_spec (tokens : List Tok) (j : Nat) (lvl : Nat)
    (h : ∃ l t, j + 1 ≤ l ∧ tokens[l]? = some t ∧ t.type = .list_item_close ∧
      t.level = lvl) :
    ∃ t, tokens[findCloseIndex tokens j lvl]? = some t ∧
      t.type = .list_item_close ∧ t.level = lvl := by
  obtain ⟨l, t, h1, h2, h3, h4⟩ := h
  obtain ⟨l', t', hfind, hsome, hp⟩ := findFrom_found tokens
    (fun u => u.type == .list_item_close && u.level == lvl) (j + 1)
    ⟨l, t, h1, h2, by simp [h3, h4]⟩
  simp only [Bool.and_eq_true, beq_iff_eq] at hp
  refine ⟨t', ?_, hp.1, hp.2⟩
  rw [show findCloseIndex tokens j lvl = l' from by simp [findCloseIndex, hfind]]
  exact hsome

theorem scanItemGo_cards (env : Env) (tokens : List Tok) (i lvl : Nat) :
    ∀ (fuel j : Nat) (r : IndexCard), r ∈ (scanItemGo env tokens i lvl fuel j).1 →
    r.list_open_token_index = i ∧
    r.list_close_token_index = findCloseIndex tokens r.inline_token_index lvl := by
  intro fuel
  induction fuel with
  | zero =>
    intro j r hr
    simp [scanItemGo] at hr
  | succ fuel ih =>
    intro j r hr
    cases hj : tokens[j]? with
    | none => simp [scanItemGo, hj] at hr
    | some t =>
      by_cases hti : t.type = .inline
      · have heq : (scanItemGo env tokens i lvl (fuel + 1) j).1 =
            (scanInlineTok env tokens i lvl j t).1 ++
              (scanItemGo env tokens i lvl fuel (j + 1)).1 := by
          simp [scanItemGo, hj, hti]
        rw [heq, List.mem_append] at hr
        rcases hr with hr | hr
        · cases hk : symbolChildScan 0 t.children with
          | none => simp [scanInlineTok, hk] at hr
          | some kd =>
            have hre : r = IndexCard.mk i j kd.1 kd.2 (findCloseIndex tokens j lvl) := by
              simpa [scanInlineTok, hk] using hr
            rw [hre]
            exact ⟨rfl, rfl⟩
        · exact ih (j + 1) r hr
      · by_cases hbrk : t.type = .list_item_close ∨ t.type = .bullet_list_open ∨
            t.type = .ordered_list_open
        · simp [scanItemGo, hj, hti, hbrk] at hr
        · have heq : (scanItemGo env tokens i lvl (fuel + 1) j).1 =
              (scanItemGo env tokens i lvl fuel (j + 1)).1 := by
            simp [scanItemGo, hj, hti, hbrk]
          rw [heq] at hr
          exact ih (j + 1) r hr

theorem parseRegionsGo_cards (env : Env) (tokens : List Tok) :
    ∀ (fuel i : Nat) (r : IndexCard), r ∈ (parseRegionsGo env tokens fuel i).1 →
    ∃ i' t, tokens[i']? = some t ∧ t.type = .list_item_open ∧
      r ∈ (scanItem env tokens i' t.level).1 := by
  intro fuel
  induction fuel with
  | zero =>
    intro i r hr
    simp [parseRegionsGo] at hr
  | succ fuel ih =>
    intro i r hr
    cases hj : tokens[i]? with
    | none => simp [parseRegionsGo, hj] at hr
    | some t =>
      by_cases hli : t.type = .list_item_open
      · have heq : (parseRegionsGo env tokens (fuel + 1) i).1 =
            (scanItem env tokens i t.level).1 ++
              (parseRegionsGo env tokens fuel (i + 1)).1 := by
          simp [parseRegionsGo, hj, hli]
        rw [heq, List.mem_append] at hr
        rcases hr with hr | hr
        · exact ⟨i, t, hj, hli, hr⟩
        · exact ih (i + 1) r hr
      · have heq : (parseRegionsGo env tokens (fuel + 1) i).1 =
            (parseRegionsGo env tokens fuel (i + 1)).1 := by
          simp [parseRegionsGo, hj, hli]
        rw [heq] at hr
        exact ih (i + 1) r hr

/-- C6: for every card region the scanner produces, the token stored at
its `list_close_token_index` is a list-item-close whose `level` equals the
level of the token at its `list_open_token_index`, provided such a
matching close exists after the region's inline token (the tokenizer
contract guarantees one for every well-formed stream; without one the
Python scan would leave the loop variable at the last index). -/
theorem region_close_matches_open_level (env : Env) (tokens : List Tok)
    (r : IndexCard) (topen : Tok)
    (hr : r ∈ (parseRegionsOfInterest env tokens).1)
    (hopen : tokens[r.list_open_token_index]? = some topen)
    (hwf : ∃ l t, r.inline_token_index + 1 ≤ l ∧ tokens[l]? = some t ∧
      t.type = .list_item_close ∧ t.level = topen.level) :
    ∃ t, tokens[r.list_close_token_index]? = some t ∧
      t.type = .list_item_close ∧ t.level = topen.level := by
  rw [show parseRegionsOfInterest env tokens =
    parseRegionsGo env tokens tokens.length 0 from rfl] at hr
  obtain ⟨i', t', hsome, hli, hmem⟩ :=
    parseRegionsGo_cards env tokens tokens.length 0 r hr
  obtain ⟨hopen_eq, hclose_eq⟩ := scanItemGo_cards env tokens i' t'.level
    (tokens.length - (i' + 1)) (i' + 1) r (by simpa [scanItem] using hmem)
  have hsame : tokens[r.list_open_token_index]? = some t' := by
    rw [hopen_eq]
    exact hsome
  rw [hopen] at hsame
  injection hsame with hsame
  subst hsame
  rw [hclose_eq]
  exact findCloseIndex_spec tokens r.inline_token_index topen.level hwf

/-- C6 witness: the theorem evaluated on the token stream of
`- Q ==> #tag` and its single card region. -/
theorem region_close_matches_open_level_witness :
    ∃ t, c3Tokens[(5 : Nat)]? = some t ∧ t.type = TokKind.list_item_close ∧
      t.level = (⟨.list_item_open, "li", 1, "", []⟩ : Tok).level :=
  region_close_matches_open_level constEnv c3Tokens
    ⟨1, 3, 0, SymbolDirection.forward, 5⟩ ⟨.list_item_open, "li", 1, "", []⟩
    (by decide) rfl
    ⟨5, ⟨.list_item_close, "li", 1, "", []⟩, by decide, rfl, rfl, rfl⟩

/-- C3: a separator-card candidate whose post-glyph content is empty after
stripping tags and whitespace (a list-card candidate) with no nested
bullet list before its matching close is silently dropped — the region
loop reassigns the `tags` variable and then continues without appending a
note — and in particular the document `- Q ==> #tag` with nothing nested
beneath it yields zero emitted cards and no error. -/
theorem invalid_list_card_dropped :
    (∀ (env : Env) (tokens : List Tok) (ffc fpc : String) (r : IndexCard)
      (it : Tok) (ch : ChildTok) (lA lB lC aft : String),
      tokens[r.inline_token_index]? = some it →
      it.children[r.symbol_child_index]? = some ch →
      pySplit1 ch.content (inlineSymbol r.symbol_direction) = [lA, lB] →
      pySplit1 it.content (inlineSymbol r.symbol_direction) = [lC, aft] →
      pyStrip (stripTags aft) = "" →
      hasImmediateNestedList tokens r = false →
      processCardRegion env tokens ffc fpc r = .ok (extractTags aft, none)) ∧
    extractCards constEnv "- Q ==> #tag" c3Tokens [] "note.md" = .ok [] := by
  constructor
  · intro env tokens ffc fpc r it ch lA lB lC aft h1 h2 h3 h4 h5 h6
    simp [processCardRegion, h1, h2, h3, h4, h5, h6]
  · rfl

/-- C3 witness: the per-region statement evaluated on the single region of
the `- Q ==> #tag` stream. -/
theorem invalid_list_card_dropped_witness :
    processCardRegion constEnv c3Tokens "" "x.md"
      ⟨1, 3, 0, SymbolDirection.forward, 5⟩ = .ok (["tag"], none) := by
  have h := invalid_list_card_dropped.1 constEnv c3Tokens "" "x.md"
    ⟨1, 3, 0, SymbolDirection.forward, 5⟩
    ⟨.inline, "", 3, "Q ==> #tag", [⟨.text, 0, "Q ==> #tag"⟩]⟩
    ⟨.text, 0, "Q ==> #tag"⟩ "Q " " #tag" "Q " " #tag"
    rfl rfl (by decide) (by decide) (by decide) (by decide)
  rw [h]
  rfl

/-! ## Helper lemmas: unfolding `extract_cards` -/

theorem extractCards_stage_error (env : Env) (text : String) (tokens : List Tok)
    (tags : List String) (fpc : String) (e : PyErr)
    (hstage : fileCardStage env text tags fpc = .error e) :
    extractCards env text tokens tags fpc = .error e := by
  unfold extractCards
  rw [hstage]

theorem extractCards_eq (env : Env) (text : String) (tokens : List Tok)
    (tags : List String) (fpc : String) (fns : List Note) (ffc : String)
    (hstage : fileCardStage env text tags fpc = .ok (fns, ffc)) :
    extractCards env text tokens tags fpc =
      match cardLoop env tokens ffc fpc (parseRegionsOfInterest env tokens).1
          tags [] with
      | .error e => .error e
      | .ok pair =>
        .ok (fns ++ pair.2 ++ (parseRegionsOfInterest env tokens).2.map
          (mkClozeRegionNote env tokens ffc fpc pair.1)) := by
  unfold extractCards
  rw [hstage]
  cases hres : cardLoop env tokens ffc fpc (parseRegionsOfInterest env tokens).1
      tags [] with
  | error e => simp only [hres]
  | ok pair =>
    rcases pair with ⟨a, b⟩
    simp only [hres]

/-- C7: when the front matter declares the `card` tag but the raw text
splits into fewer than four parts at the delimiter (i.e. fewer than three
occurrences of the delimiter line, counting the front-matter fences), the
unpacking of the split raises a ValueError, so `extract_cards` fails for
that file with a content-shape error and produces no card; with the
required delimiters present (and no `incremental` tag) the first note
produced is the basic front/back file card built from the two split
segments. -/
theorem file_card_delimiter_requirement (env : Env) (text : String)
    (tokens : List Tok) (tags : List String) (fpc : String) :
    (tags.contains "card" = true → (pySplitMax text "---\n" 3).length < 4 →
      extractCards env text tokens tags fpc = .error .valueError) ∧
    (tags.contains "card" = true → tags.contains "incremental" = false →
      ∀ ft bt, (pySplitMax text "---\n" 3).drop 2 = [ft, bt] →
      ∀ notes, extractCards env text tokens tags fpc = .ok notes →
      ∃ rest, notes = Note.mk ModelId.basicContext
        [fpc, "", env.render (env.parseBlocks ft), env.render (env.parseBlocks bt)]
        tags :: rest) := by
  constructor
  · intro hcard hlen
    have hc : "card" ∈ tags := by simpa using hcard
    have hstage : fileCardStage env text tags fpc = .error .valueError := by
      unfold fileCardStage
      cases hd : (pySplitMax text "---\n" 3).drop 2 with
      | nil => simp [hc, hd]
      | cons a l =>
        cases l with
        | nil => simp [hc, hd]
        | cons b l2 =>
          exfalso
          have h1 : ((pySplitMax text "---\n" 3).drop 2).length =
              (pySplitMax text "---\n" 3).length - 2 := by
            rw [List.length_drop]
          rw [hd] at h1
          simp at h1
          omega
    exact extractCards_stage_error env text tokens tags fpc .valueError hstage
  · intro hcard hinc ft bt hsplit notes hok
    have hc : "card" ∈ tags := by simpa using hcard
    have hi : ¬ "incremental" ∈ tags := by simpa using hinc
    have hstage : fileCardStage env text tags fpc =
        .ok ([Note.mk ModelId.basicContext
          [fpc, "", env.render (env.parseBlocks ft), env.render (env.parseBlocks bt)]
          tags], env.render (env.parseBlocks ft)) := by
      unfold fileCardStage
      simp [hc, hsplit, hi]
    rw [extractCards_eq env text tokens tags fpc _ _ hstage] at hok
    cases hloop : cardLoop env tokens (env.render (env.parseBlocks ft)) fpc
        (parseRegionsOfInterest env tokens).1 tags [] with
    | error e =>
      rw [hloop] at hok
      simp at hok
    | ok pair =>
      rw [hloop] at hok
      simp only [Except.ok.injEq] at hok
      refine ⟨pair.2 ++ (parseRegionsOfInterest env tokens).2.map
        (mkClozeRegionNote env tokens (env.render (env.parseBlocks ft)) fpc
          pair.1), ?_⟩
      rw [← hok]
      simp

/-- C7 witness: the theorem evaluated on a two-delimiter document (error)
and on a three-delimiter document (basic file card produced first). -/
theorem file_card_delimiter_requirement_witness :
    extractCards constEnv "---\ntags: [card]\n---\nnothing" []
      ["card"] "f.md" = .error .valueError ∧
    ∃ rest, ([Note.mk ModelId.basicContext ["f.md", "", "", ""] ["card"]] : List Note) =
      Note.mk ModelId.basicContext
        ["f.md", "", constEnv.render (constEnv.parseBlocks "front\n"),
         constEnv.render (constEnv.parseBlocks "back")] ["card"] :: rest :=
  ⟨(file_card_delimiter_requirement constEnv "---\ntags: [card]\n---\nnothing"
      [] ["card"] "f.md").1 rfl (by decide),
   (file_card_delimiter_requirement constEnv "---\ntags: [card]\n---\nfront\n---\nback"
      [] ["card"] "f.md").2 rfl rfl "front\n" "back" (by decide)
      [Note.mk ModelId.basicContext ["f.md", "", "", ""] ["card"]] rfl⟩

/-! ## Helper lemmas: the tags variable threaded through the card loop -/

theorem processCardRegion_tags (env : Env) (tokens : List Tok)
    (ffc fpc : String) (r : IndexCard) (tg : List String) (note? : Option Note)
    (h : processCardRegion env tokens ffc fpc r = .ok (tg, note?)) :
    regionTagUpdate tokens r = .ok tg := by
  unfold processCardRegion at h
  cases hit : tokens[r.inline_token_index]? with
  | none => simp only [hit] at h; exact absurd h (by simp)
  | some it =>
    simp only [hit] at h
    cases hch : it.children[r.symbol_child_index]? with
    | none => simp only [hch] at h; exact absurd h (by simp)
    | some ch =>
      simp only [hch] at h
      cases hsp1 : pySplit1 ch.content (inlineSymbol r.symbol_direction) with
      | nil => simp only [hsp1] at h; exact absurd h (by simp)
      | cons a l =>
        cases l with
        | nil => simp only [hsp1] at h; exact absurd h (by simp)
        | cons b l2 =>
          cases l2 with
          | cons c l3 => simp only [hsp1] at h; exact absurd h (by simp)
          | nil =>
            simp only [hsp1] at h
            cases hsp2 : pySplit1 it.content (inlineSymbol r.symbol_direction) with
            | nil => simp only [hsp2] at h; exact absurd h (by simp)
            | cons c l3 =>
              cases l3 with
              | nil => simp only [hsp2] at h; exact absurd h (by simp)
              | cons d l4 =>
                cases l4 with
                | cons e l5 => simp only [hsp2] at h; exact absurd h (by simp)
                | nil =>
                  simp only [hsp2] at h
                  have hgoal : regionTagUpdate tokens r =
                      Except.ok (extractTags d) := by
                    unfold regionTagUpdate
                    simp only [hit, hsp2]
                  rw [hgoal]
                  split at h <;>
                    (simp only [Except.ok.injEq, Prod.mk.injEq] at h
                     rw [h.1])

theorem cardLoop_leftover (env : Env) (tokens : List Tok) (ffc fpc : String) :
    ∀ (rs : List IndexCard) (tg : List String) (ns : List Note)
      (tgF : List String) (nsF : List Note),
    cardLoop env tokens ffc fpc rs tg ns = .ok (tgF, nsF) →
    leftoverTags tokens rs tg = .ok tgF := by
  intro rs
  induction rs with
  | nil =>
    intro tg ns tgF nsF h
    simp only [cardLoop, Except.ok.injEq, Prod.mk.injEq] at h
    simp [leftoverTags, h.1]
  | cons r rs ih =>
    intro tg ns tgF nsF h
    unfold cardLoop at h
    cases hp : processCardRegion env tokens ffc fpc r with
    | error e => rw [hp] at h; exact absurd h (by simp)
    | ok pair =>
      rcases pair with ⟨tg', note?⟩
      rw [hp] at h
      unfold leftoverTags
      rw [processCardRegion_tags env tokens ffc fpc r tg' note? hp]
      exact ih tg' _ tgF nsF h

/-- C9: every cloze-region note produced by `extract_cards` carries, as its
tag set, the leftover value of the `tags` variable: the tags extracted
from the last iterated separator-card region (discarded regions included,
since the reassignment precedes the validity check), or the front-matter
tags when no separator-card region exists — never anything derived from
the cloze line's own content. -/
theorem cloze_note_tags_leftover (env : Env) (text : String) (tokens : List Tok)
    (fmTags : List String) (fpc : String) (notes : List Note)
    (h : extractCards env text tokens fmTags fpc = .ok notes) :
    ∃ pre ffc finalTags,
      leftoverTags tokens (parseRegionsOfInterest env tokens).1 fmTags =
        .ok finalTags ∧
      notes = pre ++ (parseRegionsOfInterest env tokens).2.map
        (mkClozeRegionNote env tokens ffc fpc finalTags) ∧
      (∀ n ∈ (parseRegionsOfInterest env tokens).2.map
        (mkClozeRegionNote env tokens ffc fpc finalTags), n.tags = finalTags) ∧
      ((parseRegionsOfInterest env tokens).1 = [] → finalTags = fmTags) := by
  cases hstage : fileCardStage env text fmTags fpc with
  | error e =>
    rw [extractCards_stage_error env text tokens fmTags fpc e hstage] at h
    exact absurd h (by simp)
  | ok pair =>
    rcases pair with ⟨fns, ffc⟩
    rw [extractCards_eq env text tokens fmTags fpc fns ffc hstage] at h
    cases hloop : cardLoop env tokens ffc fpc
        (parseRegionsOfInterest env tokens).1 fmTags [] with
    | error e => rw [hloop] at h; exact absurd h (by simp)
    | ok pair2 =>
      rcases pair2 with ⟨tgF, cns⟩
      rw [hloop] at h
      simp only [Except.ok.injEq] at h
      refine ⟨fns ++ cns, ffc, tgF,
        cardLoop_leftover env tokens ffc fpc _ fmTags [] tgF cns hloop,
        by rw [← h], ?_, ?_⟩
      · intro n hn
        rw [List.mem_map] at hn
        obtain ⟨r0, _, hr0⟩ := hn
        rw [← hr0]
        rfl
      · intro hnil
        rw [hnil] at hloop
        simp only [cardLoop, Except.ok.injEq, Prod.mk.injEq] at hloop
        exact hloop.1.symm

/-- C9 witness: the theorem evaluated on the two-item document
`- A ==> #foo` / `- B ~~ans~~`, whose invalid card region leaves
`tags = {foo}` for the following cloze note. -/
theorem cloze_note_tags_leftover_witness :
    ∃ pre ffc finalTags,
      leftoverTags c9Tokens (parseRegionsOfInterest constEnv c9Tokens).1 [] =
        .ok finalTags ∧
      [Note.mk ModelId.clozeContext ["f.md", "", ""] ["foo"]] =
        pre ++ (parseRegionsOfInterest constEnv c9Tokens).2.map
          (mkClozeRegionNote constEnv c9Tokens ffc "f.md" finalTags) ∧
      (∀ n ∈ (parseRegionsOfInterest constEnv c9Tokens).2.map
        (mkClozeRegionNote constEnv c9Tokens ffc "f.md" finalTags),
        n.tags = finalTags) ∧
      ((parseRegionsOfInterest constEnv c9Tokens).1 = [] → finalTags = []) :=
  cloze_note_tags_leftover constEnv "" c9Tokens [] "f.md"
    [Note.mk ModelId.clozeContext ["f.md", "", ""] ["foo"]] rfl

/-! ## Helper lemmas: determinism and front-matter tag-set robustness -/

theorem cardLoop_init_tags (env : Env) (tokens : List Tok) (ffc fpc : String)
    (r : IndexCard) (rs : List IndexCard) (tg1 tg2 : List String)
    (ns : List Note) :
    cardLoop env tokens ffc fpc (r :: rs) tg1 ns =
      cardLoop env tokens ffc fpc (r :: rs) tg2 ns := by
  unfold cardLoop
  rfl

theorem mem_iff_of_containsEq (tg1 tg2 : List String)
    (hp : ∀ s, tg1.contains s = tg2.contains s) (s : String) :
    s ∈ tg1 ↔ s ∈ tg2 := by
  have hx := hp s
  simp only [List.contains, List.elem_eq_mem] at hx
  exact decide_eq_decide.mp hx

theorem noteSim_refl (l : List Note) :
    List.Forall₂ (fun a b : Note => a.model = b.model ∧ a.fields = b.fields ∧
      ∀ s, a.tags.contains s = b.tags.contains s) l l :=
  List.forall₂_same.mpr (fun a _ => ⟨rfl, rfl, fun _ => rfl⟩)

theorem mkClozeRegionNote_sim (env : Env) (tokens : List Tok) (ffc fpc : String)
    (tgA tgB : List String) (hp : ∀ s, tgA.contains s = tgB.contains s)
    (l : List IndexCloze) :
    List.Forall₂ (fun a b : Note => a.model = b.model ∧ a.fields = b.fields ∧
        ∀ s, a.tags.contains s = b.tags.contains s)
      (l.map (mkClozeRegionNote env tokens ffc fpc tgA))
      (l.map (mkClozeRegionNote env tokens ffc fpc tgB)) := by
  induction l with
  | nil => exact List.Forall₂.nil
  | cons r rs ih =>
    refine List.Forall₂.cons ⟨rfl, ?_, fun s => hp s⟩ ih
    unfold mkClozeRegionNote
    rw [hp "card"]

theorem fileCardStage_cases (env : Env) (text fpc : String)
    (tgA tgB : List String) (hp : ∀ s, tgA.contains s = tgB.contains s) :
    (∃ e, fileCardStage env text tgA fpc = .error e ∧
      fileCardStage env text tgB fpc = .error e) ∨
    (∃ fnsA fnsB ffc, fileCardStage env text tgA fpc = .ok (fnsA, ffc) ∧
      fileCardStage env text tgB fpc = .ok (fnsB, ffc) ∧
      List.Forall₂ (fun a b : Note => a.model = b.model ∧ a.fields = b.fields ∧
        ∀ s, a.tags.contains s = b.tags.contains s) fnsA fnsB) := by
  have hiff := mem_iff_of_containsEq tgA tgB hp
  by_cases hc : "card" ∈ tgA
  · have hcB : "card" ∈ tgB := (hiff "card").mp hc
    cases hd : (pySplitMax text "---\n" 3).drop 2 with
    | nil =>
      refine Or.inl ⟨.valueError, ?_, ?_⟩ <;>
        (unfold fileCardStage
         simp [hc, hcB, hd])
    | cons a l =>
      cases l with
      | nil =>
        refine Or.inl ⟨.valueError, ?_, ?_⟩ <;>
          (unfold fileCardStage
           simp [hc, hcB, hd])
      | cons b l2 =>
        cases l2 with
        | cons cx l3 =>
          refine Or.inl ⟨.valueError, ?_, ?_⟩ <;>
            (unfold fileCardStage
             simp [hc, hcB, hd])
        | nil =>
          by_cases hi : "incremental" ∈ tgA
          · have hiB : "incremental" ∈ tgB := (hiff "incremental").mp hi
            refine Or.inr ⟨[createClozeCard env (env.parseBlocks a)
                (env.parseBlocks b) .forward true tgA fpc ""],
              [createClozeCard env (env.parseBlocks a)
                (env.parseBlocks b) .forward true tgB fpc ""],
              env.render (env.parseBlocks a), ?_, ?_, ?_⟩
            · unfold fileCardStage
              simp [hc, hd, hi]
            · unfold fileCardStage
              simp [hcB, hd, hiB]
            · exact List.Forall₂.cons ⟨rfl, rfl, fun s => hp s⟩ List.Forall₂.nil
          · have hiB : ¬ "incremental" ∈ tgB := fun hx => hi ((hiff "incremental").mpr hx)
            refine Or.inr ⟨[Note.mk .basicContext
                [fpc, "", env.render (env.parseBlocks a), env.render (env.parseBlocks b)] tgA],
              [Note.mk .basicContext
                [fpc, "", env.render (env.parseBlocks a), env.render (env.parseBlocks b)] tgB],
              env.render (env.parseBlocks a), ?_, ?_, ?_⟩
            · unfold fileCardStage
              simp [hc, hd, hi]
            · unfold fileCardStage
              simp [hcB, hd, hiB]
            · exact List.Forall₂.cons ⟨rfl, rfl, fun s => hp s⟩ List.Forall₂.nil
  · have hcB : ¬ "card" ∈ tgB := fun hx => hc ((hiff "card").mpr hx)
    refine Or.inr ⟨[], [], "", ?_, ?_, List.Forall₂.nil⟩ <;>
      (unfold fileCardStage
       simp [hc, hcB])

/-- C8: extraction within one file is deterministic — the embedding is a
pure function, so two runs on the same text, token sequence and
front-matter tags are definitionally equal — and moreover depends on the
front-matter tags only through membership: runs on membership-equal
front-matter tag sets produce pairwise notes with identical models,
byte-identical field strings, and equal tag sets. -/
theorem extraction_deterministic (env : Env) (text : String) (tokens : List Tok)
    (fpc : String) (tg1 tg2 : List String)
    (hp : ∀ s, tg1.contains s = tg2.contains s) :
    extractCards env text tokens tg1 fpc = extractCards env text tokens tg1 fpc ∧
    ∀ n1 n2, extractCards env text tokens tg1 fpc = .ok n1 →
      extractCards env text tokens tg2 fpc = .ok n2 →
      List.Forall₂ (fun a b : Note => a.model = b.model ∧ a.fields = b.fields ∧
        ∀ s, a.tags.contains s = b.tags.contains s) n1 n2 := by
  refine ⟨rfl, ?_⟩
  intro n1 n2 h1 h2
  rcases fileCardStage_cases env text fpc tg1 tg2 hp with
    ⟨e, he1, he2⟩ | ⟨fns1, fns2, ffc, hs1, hs2, hrel⟩
  · rw [extractCards_stage_error env text tokens tg1 fpc e he1] at h1
    exact absurd h1 (by simp)
  · rw [extractCards_eq env text tokens tg1 fpc fns1 ffc hs1] at h1
    rw [extractCards_eq env text tokens tg2 fpc fns2 ffc hs2] at h2
    cases hrs : (parseRegionsOfInterest env tokens).1 with
    | nil =>
      rw [hrs] at h1 h2
      simp only [cardLoop, Except.ok.injEq] at h1 h2
      rw [← h1, ← h2]
      exact List.rel_append (List.rel_append hrel (noteSim_refl []))
        (mkClozeRegionNote_sim env tokens ffc fpc tg1 tg2 hp
          (parseRegionsOfInterest env tokens).2)
    | cons r rs =>
      rw [hrs] at h1 h2
      rw [← cardLoop_init_tags env tokens ffc fpc r rs tg1 tg2 []] at h2
      cases hl : cardLoop env tokens ffc fpc (r :: rs) tg1 [] with
      | error e =>
        rw [hl] at h1
        exact absurd h1 (by simp)
      | ok pair =>
        rcases pair with ⟨tgF, cns⟩
        rw [hl] at h1 h2
        simp only [Except.ok.injEq] at h1 h2
        rw [← h1, ← h2]
        exact List.rel_append (List.rel_append hrel (noteSim_refl cns))
          (noteSim_refl _)

/-- C8 witness: the theorem evaluated on the `- Q ==> #tag` document with
two enumerations of the same front-matter tag set. -/
theorem extraction_deterministic_witness :
    (extractCards constEnv "- Q ==> #tag" c3Tokens ["a", "b"] "n.md" =
      extractCards constEnv "- Q ==> #tag" c3Tokens ["a", "b"] "n.md") ∧
    ∀ n1 n2, extractCards constEnv "- Q ==> #tag" c3Tokens ["a", "b"] "n.md" = .ok n1 →
      extractCards constEnv "- Q ==> #tag" c3Tokens ["b", "a", "a"] "n.md" = .ok n2 →
      List.Forall₂ (fun a b : Note => a.model = b.model ∧ a.fields = b.fields ∧
        ∀ s, a.tags.contains s = b.tags.contains s) n1 n2 :=
  extraction_deterministic constEnv "- Q ==> #tag" c3Tokens "n.md"
    ["a", "b"] ["b", "a", "a"]
    (by
      intro s
      simp only [List.contains, List.elem_eq_mem, List.mem_cons,
        List.not_mem_nil, or_false]
      rw [decide_eq_decide]
      tauto)
